import Mathlib

/-!
# A verification development for `nn.c`

`nn.c` trains a one-hidden-layer sigmoid network by per-sample backpropagation.
The C functions are embedded as Lean functions with explicit state passing:

* a `double *` buffer is a map `Nat → K` from offset to value, a store
  `p[i] = v` is `Function.update p i v`; distinct pointer arguments are
  distinct buffers;
* the arithmetic of `double` is a parameter `K` of the code: the definitions only
  use its operations, and are read both over an exact ordered field (`ℚ`, `ℝ`) and
  over `F64`, the rounded arithmetic of binary64; a theorem stated for an ordered
  field speaks of exact arithmetic, one stated for `F64` of the rounded operations;
* `exp` of `math.h` is not part of the repository and is a parameter;
* a `for (int i = 0; i < n; i++)` loop is `forLoop n body`;
* the local arrays of a function, which C leaves uninitialised, are extra
  arguments holding their indeterminate initial contents;
* the macro `LEARNING_RATE` is the argument `lr` of `backprop`; `train_net`
  passes the constant `LEARNING_RATE`;
* `rand()` and `RAND_MAX` of `stdlib.h` are parameters: the sequence of values the
  successive calls return, and a constant;
* a dataset file is what `fopen` finds: `none` when it cannot be opened, otherwise
  the list of its lines, each already split into the integers `atoi` reads (every
  line is taken to have its `INPUT_SIZE + 1` fields);
* what `printf` reports is returned as a value; the timing output is left out.
-/

namespace NN

/-! ## Configuration constants (`#define`s) -/

/-- `#define INPUT_SIZE 784` -/
def INPUT_SIZE : Nat := 784
/-- `#define HIDDEN_SIZE 128` -/
def HIDDEN_SIZE : Nat := 128
/-- `#define OUTPUT_SIZE 100` -/
def OUTPUT_SIZE : Nat := 100
/-- `#define TRAIN_SIZE 60000` -/
def TRAIN_SIZE : Nat := 60000
/-- `#define TEST_SIZE 10000` -/
def TEST_SIZE : Nat := 10000
/-- `#define EPOCHS 10` -/
def EPOCHS : Nat := 10

/-! ## Control flow -/

/-- `for (int i = 0; i < n; i++) body(i)` acting on a state: the bodies run in
the order `0, 1, …, n-1`. -/
def forLoop {σ : Type} (n : Nat) (body : Nat → σ → σ) (s : σ) : σ :=
  match n with
  | 0 => s
  | m + 1 => body m (forLoop m body s)

/-- `for (int i = lo; i < hi; i++) body(i)` acting on a state. -/
def forLoopFrom {σ : Type} (lo hi : Nat) (body : Nat → σ → σ) (s : σ) : σ :=
  forLoop (hi - lo) (fun t => body (lo + t)) s

section Code

/-! The arithmetic of `double` is a parameter of the embedding: the code only uses the
operations below, so the same definitions are read over an exact ordered field (`ℚ`, `ℝ`)
and over the rounded arithmetic of binary64 (`F64`). -/

variable {K : Type} [Zero K] [One K] [Add K] [Sub K] [Mul K] [Div K] [Neg K] [NatCast K]
  [IntCast K] [Pow K Nat] [LT K] [DecidableRel (fun a b : K => a < b)]

/-- `#define LEARNING_RATE 0.3` -/
def LEARNING_RATE : K := 3 / 10

/-! ## Activation -/

/-- `sigmoid`: `return 1.0 / (1.0 + exp(-x));` -/
def sigmoid (exp : K → K) (x : K) : K :=
  1 / (1 + exp (-x))

/-- `d_sigmoid`: `return x * (1 - x);` -/
def d_sigmoid (x : K) : K :=
  x * (1 - x)

/-! ## Forward pass -/

/-- `forward`: returns the final contents of `(h_layer, o_layer)`. -/
def forward (exp : K → K) (input h_weights o_weights h_layer o_layer : Nat → K) :
    (Nat → K) × (Nat → K) :=
  let h_layer := forLoop HIDDEN_SIZE (fun i h_layer =>
    let h_layer := Function.update h_layer i 0
    let h_layer := forLoop INPUT_SIZE (fun j h_layer =>
      Function.update h_layer i (h_layer i + input j * h_weights (i * INPUT_SIZE + j))) h_layer
    Function.update h_layer i (sigmoid exp (h_layer i))) h_layer
  let o_layer := forLoop OUTPUT_SIZE (fun i o_layer =>
    let o_layer := Function.update o_layer i 0
    let o_layer := forLoop HIDDEN_SIZE (fun j o_layer =>
      Function.update o_layer i (o_layer i + h_layer j * o_weights (i * HIDDEN_SIZE + j))) o_layer
    Function.update o_layer i (sigmoid exp (o_layer i))) o_layer
  (h_layer, o_layer)

/-! ## Backward pass -/

/-- `backprop`: returns the final contents of `(h_weights, o_weights)`.
`lr` stands for the macro `LEARNING_RATE`; `o_error`, `h_error` are the initial
contents of the two local arrays. -/
def backprop (lr : K) (input : Nat → K) (label : Int) (h_weights o_weights h_layer o_layer : Nat → K)
    (o_error h_error : Nat → K) : (Nat → K) × (Nat → K) :=
  -- out
  let o_error := forLoop OUTPUT_SIZE (fun i o_error =>
    let target : K := if (i : Int) = label then 1 else 0
    Function.update o_error i ((target - o_layer i) * d_sigmoid (o_layer i))) o_error
  -- hidden
  let h_error := forLoop HIDDEN_SIZE (fun i h_error =>
    let h_error := Function.update h_error i 0
    let h_error := forLoop OUTPUT_SIZE (fun j h_error =>
      Function.update h_error i (h_error i + o_error j * o_weights (j * HIDDEN_SIZE + i))) h_error
    Function.update h_error i (h_error i * d_sigmoid (h_layer i))) h_error
  let o_weights := forLoop OUTPUT_SIZE (fun i o_weights =>
    forLoop HIDDEN_SIZE (fun j o_weights =>
      Function.update o_weights (i * HIDDEN_SIZE + j)
        (o_weights (i * HIDDEN_SIZE + j) + lr * o_error i * h_layer j)) o_weights) o_weights
  let h_weights := forLoop HIDDEN_SIZE (fun i h_weights =>
    forLoop INPUT_SIZE (fun j h_weights =>
      Function.update h_weights (i * INPUT_SIZE + j)
        (h_weights (i * INPUT_SIZE + j) + lr * h_error i * input j)) h_weights) h_weights
  (h_weights, o_weights)

/-! ## Training loop -/

/-- The variables `train_net` carries through its loops, together with the
losses it has printed so far (oldest first). -/
structure TrainState (K : Type) where
  h_weights : Nat → K
  o_weights : Nat → K
  h_layer : Nat → K
  o_layer : Nat → K
  total_loss : K
  printed : List K

/-- The body of the sample loop of `train_net` (lines 136-145) for sample `i`. -/
def train_sample (exp : K → K) (images : Nat → Nat → K) (labels : Nat → Int)
    (o_error h_error : Nat → K) (i : Nat) (s : TrainState K) : TrainState K :=
  let fw := forward exp (images i) s.h_weights s.o_weights s.h_layer s.o_layer
  let h_layer := fw.1
  let o_layer := fw.2
  -- mse
  let loss : K := forLoop OUTPUT_SIZE (fun j loss =>
    let target : K := if (j : Int) = labels i then 1 else 0
    loss + (target - o_layer j) ^ 2) 0
  let total_loss := s.total_loss + loss
  let bp := backprop LEARNING_RATE (images i) (labels i) s.h_weights s.o_weights h_layer o_layer
    o_error h_error
  { h_weights := bp.1, o_weights := bp.2, h_layer := h_layer, o_layer := o_layer,
    total_loss := total_loss, printed := s.printed }

/-- The body of the epoch loop of `train_net` (lines 132-148). -/
def train_epoch (exp : K → K) (images : Nat → Nat → K) (labels : Nat → Int)
    (o_error h_error : Nat → K) (_epoch : Nat) (s : TrainState K) : TrainState K :=
  let s := { s with total_loss := 0 }
  let s := forLoop TRAIN_SIZE (train_sample exp images labels o_error h_error) s
  { s with printed := s.printed ++ [s.total_loss / (TRAIN_SIZE : K)] }

/-- `train_net`: returns the final `(h_weights, o_weights)` and the list of the
losses printed, one per epoch. `h_layer`, `o_layer` are the initial contents of
its local arrays, `o_error`, `h_error` those of the local arrays of `backprop`. -/
def train_net (exp : K → K) (images : Nat → Nat → K) (labels : Nat → Int)
    (h_weights o_weights : Nat → K) (h_layer o_layer o_error h_error : Nat → K) :
    (Nat → K) × (Nat → K) × List K :=
  let s := forLoop EPOCHS (train_epoch exp images labels o_error h_error)
    { h_weights := h_weights, o_weights := o_weights, h_layer := h_layer, o_layer := o_layer,
      total_loss := 0, printed := [] }
  (s.h_weights, s.o_weights, s.printed)

/-! ## Evaluation loop -/

/-- The arg-max scan of `test_net` (lines 160-167): returns the final
`(pred_label, max_output)`. -/
def predict (o_layer : Nat → K) : Nat × K :=
  let pred_label : Nat := 0
  let max_output : K := o_layer 0
  forLoopFrom 1 OUTPUT_SIZE (fun j (st : Nat × K) =>
    if o_layer j > st.2 then (j, o_layer j) else st) (pred_label, max_output)

/-- `test_net`: returns the accuracy it prints. `h_layer`, `o_layer` are the
initial contents of its local arrays. -/
def test_net (exp : K → K) (test_images : Nat → Nat → K) (test_labels : Nat → Int)
    (h_weights o_weights : Nat → K) (h_layer o_layer : Nat → K) : K :=
  let correct_pred : Nat := 0
  let st := forLoop TEST_SIZE (fun i (st : (Nat → K) × (Nat → K) × Nat) =>
    let fw := forward exp (test_images i) h_weights o_weights st.1 st.2.1
    let pred_label := (predict fw.2).1
    let correct_pred := if (pred_label : Int) = test_labels i then st.2.2 + 1 else st.2.2
    (fw.1, fw.2, correct_pred)) (h_layer, o_layer, correct_pred)
  (st.2.2 : K) / (TEST_SIZE : K) * 100

/-! ## Parameter store, loader, normaliser and `main` -/

/-- `init_weights`: returns the final contents of `weights`. `RAND_MAX` and `rand` belong
to the C library: `RAND_MAX` is a parameter and `rand i` is the value the `i`-th call of
`rand()` made by this invocation returns. -/
def init_weights (RAND_MAX : Int) (rand : Nat → Int) (weights : Nat → K) (size : Int) :
    Nat → K :=
  forLoop size.toNat (fun i weights =>
    Function.update weights i (((rand i : K) / (RAND_MAX : K)) * 2 - 1)) weights

/-- One line of a dataset file as `read_csv` parses it: `atoi` of the first token and
`atoi` of each of the following tokens. -/
structure CsvRow where
  label : Int
  pixels : Nat → Int

/-- What `read_csv` leaves behind: the two arrays and whether it printed
`Failed to open file`. -/
structure Loaded (K : Type) where
  images : Nat → Nat → K
  labels : Nat → Int
  failed_to_open : Bool

/-- `read_csv`: `file` is what `fopen` finds, `none` when the file cannot be opened and
otherwise the lines `fgets` will return in turn. The function returns nothing to its
caller; the result here is the state it leaves behind. -/
def read_csv (file : Option (List CsvRow)) (images : Nat → Nat → K) (labels : Nat → Int)
    (size : Int) : Loaded K :=
  match file with
  | none => { images := images, labels := labels, failed_to_open := true }
  | some lines =>
    let st := forLoop size.toNat
      (fun i (st : (Nat → Nat → K) × (Nat → Int) × List CsvRow) =>
        match st.2.2 with
        | [] => st
        | line :: rest =>
          let labels := Function.update st.2.1 i line.label
          let images := forLoop INPUT_SIZE (fun j (images : Nat → Nat → K) =>
            Function.update images i (Function.update (images i) j ((line.pixels j : Int) : K)))
            st.1
          (images, labels, rest)) (images, labels, lines)
    { images := st.1, labels := st.2.1, failed_to_open := false }

/-- `normalize_data`: returns the final contents of `images`. -/
def normalize_data (images : Nat → Nat → K) (size : Int) : Nat → Nat → K :=
  forLoop size.toNat (fun i images =>
    forLoop INPUT_SIZE (fun j (images : Nat → Nat → K) =>
      Function.update images i (Function.update (images i) j (images i j / 255))) images) images

/-- The indeterminate initial contents of the memory `main` and its callees use without
initialising it: the four `malloc`ed arrays, the two weight arrays and the local arrays
of `train_net`, `test_net` and `backprop`. -/
structure Uninit (K : Type) where
  train_images : Nat → Nat → K
  train_labels : Nat → Int
  test_images : Nat → Nat → K
  test_labels : Nat → Int
  h_weights : Nat → K
  o_weights : Nat → K
  h_layer : Nat → K
  o_layer : Nat → K
  o_error : Nat → K
  h_error : Nat → K

/-- What a run of `main` shows: the two possible `Failed to open file` messages, the
losses `train_net` printed, the accuracy `test_net` printed and the exit status. -/
structure MainOutput (K : Type) where
  test_failed_to_open : Bool
  train_failed_to_open : Bool
  losses : List K
  accuracy : K
  status : Int

/-- `main` (timing output left out): `mnist_test`, `mnist_train` are the two dataset
files as `fopen` finds them, `rand` the sequence `rand()` returns after `srand(1)`. -/
def main (exp : K → K) (RAND_MAX : Int) (rand : Nat → Int)
    (mnist_test mnist_train : Option (List CsvRow)) (u : Uninit K) : MainOutput K :=
  let test := read_csv mnist_test u.test_images u.test_labels (TEST_SIZE : Int)
  let test_images := normalize_data test.images (TEST_SIZE : Int)
  let train := read_csv mnist_train u.train_images u.train_labels (TRAIN_SIZE : Int)
  let train_images := normalize_data train.images (TRAIN_SIZE : Int)
  let h_weights := init_weights RAND_MAX rand u.h_weights ((HIDDEN_SIZE * INPUT_SIZE : Nat) : Int)
  let o_weights := init_weights RAND_MAX (fun i => rand (HIDDEN_SIZE * INPUT_SIZE + i))
    u.o_weights ((OUTPUT_SIZE * HIDDEN_SIZE : Nat) : Int)
  let trained := train_net exp train_images train.labels h_weights o_weights
    u.h_layer u.o_layer u.o_error u.h_error
  let accuracy := test_net exp test_images test.labels trained.1 trained.2.1
    u.h_layer u.o_layer
  { test_failed_to_open := test.failed_to_open, train_failed_to_open := train.failed_to_open,
    losses := trained.2.2, accuracy := accuracy, status := 0 }

end Code

/-! ## Binary64 arithmetic

The values of finite doubles are rationals; every arithmetic operation returns the exact
result rounded to the nearest double, ties to even. Infinities and NaN are left out:
what the model returns where the C operation overflows or divides by zero has no
meaning. -/

/-- The integer nearest to `q`, the even one when `q` lies halfway between two. -/
def roundHalfEven (q : ℚ) : ℤ :=
  if q - ⌊q⌋ < 1 / 2 then ⌊q⌋
  else if 1 / 2 < q - ⌊q⌋ then ⌊q⌋ + 1
  else if ⌊q⌋ % 2 = 0 then ⌊q⌋ else ⌊q⌋ + 1

/-- Rounding of a rational to binary64: a 53-bit significand, that is a multiple of
`2 ^ (e - 52)` where `2 ^ e ≤ |x| < 2 ^ (e + 1)`, the exponent `e` not going below `-1022`
(gradual underflow). -/
def fl (x : ℚ) : ℚ :=
  if x = 0 then 0
  else roundHalfEven (x / 2 ^ (max (Int.log 2 |x|) (-1022) - 52))
    * 2 ^ (max (Int.log 2 |x|) (-1022) - 52)

/-- A finite double, given by its value. -/
structure F64 where
  val : ℚ

instance : Zero F64 := ⟨⟨0⟩⟩

instance : One F64 := ⟨⟨1⟩⟩

instance : Add F64 := ⟨fun a b => ⟨fl (a.val + b.val)⟩⟩

instance : Sub F64 := ⟨fun a b => ⟨fl (a.val - b.val)⟩⟩

instance : Mul F64 := ⟨fun a b => ⟨fl (a.val * b.val)⟩⟩

instance : Div F64 := ⟨fun a b => ⟨fl (a.val / b.val)⟩⟩

instance : Neg F64 := ⟨fun a => ⟨-a.val⟩⟩

instance : NatCast F64 := ⟨fun n => ⟨fl (n : ℚ)⟩⟩

instance : IntCast F64 := ⟨fun n => ⟨fl (n : ℚ)⟩⟩

instance : Pow F64 Nat := ⟨fun a n => ⟨fl (a.val ^ n)⟩⟩

instance : LT F64 := ⟨fun a b => a.val < b.val⟩

instance : DecidableRel (fun a b : F64 => a < b) :=
  fun a b => inferInstanceAs (Decidable (a.val < b.val))

/-! ## Specification-side definitions -/

section SpecDefs

variable {K : Type} [LinearOrderedField K]

/-- One-hot vector of a class index: `1` at `label`, `0` elsewhere. -/
def oneHot (label : Nat) : Nat → K :=
  fun k => if k = label then 1 else 0

/-- Output error signal of unit `k` for a target vector:
`(target[k] − output[k])·output[k]·(1 − output[k])`. -/
def oErr (target output : Nat → K) (k : Nat) : K :=
  (target k - output k) * (output k * (1 - output k))

/-- Hidden error signal of unit `i`:
`(Σ_k oe[k]·Wo[k,i])·hidden[i]·(1 − hidden[i])`. -/
def hErr (oe Wo hidden : Nat → K) (i : Nat) : K :=
  (∑ k in Finset.range OUTPUT_SIZE, oe k * Wo (k * HIDDEN_SIZE + i)) * (hidden i * (1 - hidden i))

/-- The target the code compares against: `(i == label) ? 1.0 : 0.0`. -/
def codeTarget (label : Int) : Nat → K :=
  fun i => if (i : Int) = label then 1 else 0

/-- Number of held-out samples whose predicted label, the arg-max scan of the `forward`
output on the weights `(Wh, Wo)`, equals the sample's label. -/
def correctCount (exp : K → K) (test_images : Nat → Nat → K) (test_labels : Nat → Int)
    (Wh Wo : Nat → K) : Nat :=
  ((Finset.range TEST_SIZE).filter (fun i =>
    (((predict (forward exp (test_images i) Wh Wo (fun _ => 0) (fun _ => 0)).2).1 : Nat) : Int)
      = test_labels i)).card

/-- `p` is the arg-max of the output vector `o` over `[0, OUTPUT_SIZE)`, ties resolved to
the lowest index: no entry exceeds `o p` and every earlier entry is strictly smaller. -/
def IsFirstMax (o : Nat → K) (p : Nat) : Prop :=
  p < OUTPUT_SIZE ∧ (∀ j, j < OUTPUT_SIZE → o j ≤ o p) ∧ (∀ j, j < p → o j < o p)

end SpecDefs

/-! ## Specification-side description of training -/

section TrainSpec

variable {K : Type} [LinearOrderedField K]

/-- One training step on the pair `(Wh, Wo)` for sample `i`:
`W ↦ backprop(x_i, label_i, W, forward(x_i, W))`. -/
def trainStep (exp : K → K) (images : Nat → Nat → K) (labels : Nat → Int)
    (W : (Nat → K) × (Nat → K)) (i : Nat) : (Nat → K) × (Nat → K) :=
  let fw := forward exp (images i) W.1 W.2 (fun _ => 0) (fun _ => 0)
  backprop LEARNING_RATE (images i) (labels i) W.1 W.2 fw.1 fw.2 (fun _ => 0) (fun _ => 0)

/-- The weights after the first `n` samples of a pass that starts from `W`: the
left-to-right fold of `trainStep` over the samples `0, …, n-1`. -/
def passPrefix (exp : K → K) (images : Nat → Nat → K) (labels : Nat → Int) (n : Nat)
    (W : (Nat → K) × (Nat → K)) : (Nat → K) × (Nat → K) :=
  (List.range n).foldl (trainStep exp images labels) W

/-- One full pass over the training set. -/
def fullPass (exp : K → K) (images : Nat → Nat → K) (labels : Nat → Int)
    (W : (Nat → K) × (Nat → K)) : (Nat → K) × (Nat → K) :=
  passPrefix exp images labels TRAIN_SIZE W

/-- The weights as they stand immediately before the `backprop` of sample `i` in
epoch `e` (both counted from 0), training having started from `W`. -/
def weightsBefore (exp : K → K) (images : Nat → Nat → K) (labels : Nat → Int)
    (W : (Nat → K) × (Nat → K)) (e i : Nat) : (Nat → K) × (Nat → K) :=
  passPrefix exp images labels i ((fullPass exp images labels)^[e] W)

/-- Squared-error loss of sample `i` on the weights `W` against the one-hot vector of
its label: `Σ_k (target_i[k] − output_i[k])²`. -/
def sampleLoss (exp : K → K) (images : Nat → Nat → K) (labels : Nat → Int)
    (W : (Nat → K) × (Nat → K)) (i : Nat) : K :=
  ∑ k in Finset.range OUTPUT_SIZE,
    (oneHot (labels i).toNat k
      - (forward exp (images i) W.1 W.2 (fun _ => 0) (fun _ => 0)).2 k) ^ 2

/-- Mean loss of epoch `e`: the sum of the sample losses, each on the weights as they
stand just before that sample's `backprop`, divided by `TRAIN_SIZE`. -/
def epochLoss (exp : K → K) (images : Nat → Nat → K) (labels : Nat → Int)
    (W : (Nat → K) × (Nat → K)) (e : Nat) : K :=
  (∑ i in Finset.range TRAIN_SIZE,
    sampleLoss exp images labels (weightsBefore exp images labels W e i) i) / (TRAIN_SIZE : K)

end TrainSpec

/-! ## Specification-side description of the single-sample loss -/

section LossDefs

variable {K : Type} [LinearOrderedField K]

/-- Squared-error loss of an output buffer against the one-hot vector of `label`:
`Σ_k (target[k] − output[k])²`. -/
def sqLoss (label : Nat) (output : Nat → K) : K :=
  ∑ k in Finset.range OUTPUT_SIZE, (oneHot label k - output k) ^ 2

/-- Loss of the sample `(x, label)` computed by `forward` on the weights `(Wh, Wo)`. -/
def lossOn (exp : K → K) (x : Nat → K) (label : Int) (Wh Wo h0 o0 : Nat → K) : K :=
  sqLoss label.toNat (forward exp x Wh Wo h0 o0).2

/-- The weights after one `forward` followed by one `backprop` with learning rate `lr`
on the sample `(x, label)`. -/
def updatedWeights (exp : K → K) (lr : K) (x : Nat → K) (label : Int)
    (Wh Wo h0 o0 oe he : Nat → K) : (Nat → K) × (Nat → K) :=
  backprop lr x label Wh Wo (forward exp x Wh Wo h0 o0).1 (forward exp x Wh Wo h0 o0).2 oe he

end LossDefs

section LossCurve

variable {K : Type} [LinearOrderedField K]

/-- Pre-activation of hidden unit `i` on the hidden weights `Wh[i,j] + η·hE[i]·x[j]`. -/
def hiddenPre (x Wh hE : Nat → K) (η : K) (i : Nat) : K :=
  ∑ j in Finset.range INPUT_SIZE, x j * (Wh (i * INPUT_SIZE + j) + η * hE i * x j)

/-- Pre-activation of output unit `k` on the updated hidden weights and the output
weights `Wo[k,j] + η·oE[k]·hid[j]`. -/
def outputPre (exp : K → K) (x Wh Wo hE oE hid : Nat → K) (η : K) (k : Nat) : K :=
  ∑ j in Finset.range HIDDEN_SIZE,
    sigmoid exp (hiddenPre x Wh hE η j) * (Wo (k * HIDDEN_SIZE + j) + η * oE k * hid j)

/-- The sample loss as a function of the learning rate `η`. -/
def lossCurve (exp : K → K) (x Wh Wo hE oE hid tgt : Nat → K) (η : K) : K :=
  ∑ k in Finset.range OUTPUT_SIZE,
    (tgt k - sigmoid exp (outputPre exp x Wh Wo hE oE hid η k)) ^ 2

/-- Derivative in `η` of `hiddenPre`. -/
def dHiddenPre (x hE : Nat → K) (i : Nat) : K :=
  ∑ j in Finset.range INPUT_SIZE, x j * (hE i * x j)

/-- Derivative in `η` of the hidden activation `sigmoid (hiddenPre …)`. -/
def dHiddenAct (exp : K → K) (x Wh hE : Nat → K) (η : K) (i : Nat) : K :=
  sigmoid exp (hiddenPre x Wh hE η i) * (1 - sigmoid exp (hiddenPre x Wh hE η i))
    * dHiddenPre x hE i

/-- Derivative in `η` of `outputPre`. -/
def dOutputPre (exp : K → K) (x Wh Wo hE oE hid : Nat → K) (η : K) (k : Nat) : K :=
  ∑ j in Finset.range HIDDEN_SIZE,
    (dHiddenAct exp x Wh hE η j * (Wo (k * HIDDEN_SIZE + j) + η * oE k * hid j)
      + sigmoid exp (hiddenPre x Wh hE η j) * (oE k * hid j))

/-- Derivative in `η` of `lossCurve`. -/
def dLossCurve (exp : K → K) (x Wh Wo hE oE hid tgt : Nat → K) (η : K) : K :=
  ∑ k in Finset.range OUTPUT_SIZE,
    2 * (tgt k - sigmoid exp (outputPre exp x Wh Wo hE oE hid η k))
      * -(sigmoid exp (outputPre exp x Wh Wo hE oE hid η k)
          * (1 - sigmoid exp (outputPre exp x Wh Wo hE oE hid η k))
          * dOutputPre exp x Wh Wo hE oE hid η k)

end LossCurve

/-! ## Loop lemmas -/

section LoopLemmas

variable {K : Type} [LinearOrderedField K]

theorem forLoop_zero {σ : Type} (body : Nat → σ → σ) (s : σ) : forLoop 0 body s = s := rfl

theorem forLoop_succ {σ : Type} (n : Nat) (body : Nat → σ → σ) (s : σ) :
    forLoop (n + 1) body s = body n (forLoop n body s) := rfl

/-- Two loops whose bodies agree on the indices below the bound agree. -/
theorem forLoop_congr {σ : Type} (n : Nat) (body body2 : Nat → σ → σ) (s : σ)
    (h : ∀ i, i < n → ∀ t, body i t = body2 i t) : forLoop n body s = forLoop n body2 s := by
  induction n with
  | zero => rfl
  | succ m ih =>
    rw [forLoop_succ, forLoop_succ, ih (fun i hi t => h i (Nat.lt_succ_of_lt hi) t),
      h m (Nat.lt_succ_self m)]

/-- An accumulation `b[i] += f j` over `j < n` adds the sum of the `f j` to cell `i`. -/
theorem forLoop_accumulate (n i : Nat) (f : Nat → K) (b : Nat → K) :
    forLoop n (fun j b => Function.update b i (b i + f j)) b
      = Function.update b i (b i + ∑ j in Finset.range n, f j) := by
  induction n with
  | zero => simp [forLoop_zero]
  | succ m ih =>
    rw [forLoop_succ, ih]
    simp [Finset.sum_range_succ, add_assoc]

/-- The row pattern `b[i] = 0; for j: b[i] += f i j; b[i] = fin i b[i]` run for
`i < n` fills cell `i` with `fin i (Σ_j f i j)` and leaves the other cells. -/
theorem forLoop_rows (n m : Nat) (f : Nat → Nat → K) (fin : Nat → K → K) (b : Nat → K) :
    forLoop n (fun i b =>
      let b := Function.update b i 0
      let b := forLoop m (fun j b => Function.update b i (b i + f i j)) b
      Function.update b i (fin i (b i))) b
      = fun t => if t < n then fin t (∑ j in Finset.range m, f t j) else b t := by
  induction n with
  | zero => funext t; simp [forLoop_zero]
  | succ k ih =>
    rw [forLoop_succ, ih]
    funext t
    simp only [forLoop_accumulate, Function.update_same, Function.update_idem, zero_add]
    by_cases htk : t = k
    · subst htk; simp
    · rw [Function.update_noteq htk]
      by_cases hlt : t < k
      · simp [hlt, Nat.lt_succ_of_lt hlt]
      · have : ¬ t < k + 1 := by omega
        simp [hlt, this]

/-- A loop storing `g i` in cell `i` for `i < n`. -/
theorem forLoop_cells {α : Type} (n : Nat) (g : Nat → α) (b : Nat → α) :
    forLoop n (fun i b => Function.update b i (g i)) b = fun t => if t < n then g t else b t := by
  induction n with
  | zero => funext t; simp [forLoop_zero]
  | succ k ih =>
    rw [forLoop_succ, ih]
    funext t
    by_cases htk : t = k
    · subst htk; simp
    · rw [Function.update_noteq htk]
      by_cases hlt : t < k
      · simp [hlt, Nat.lt_succ_of_lt hlt]
      · have : ¬ t < k + 1 := by omega
        simp [hlt, this]

/-- One row of a weight update: `w[base + j] += d j` for `j < m`. -/
theorem forLoop_row_update (m base : Nat) (d : Nat → K) (w : Nat → K) :
    forLoop m (fun j w => Function.update w (base + j) (w (base + j) + d j)) w
      = fun t => if base ≤ t ∧ t < base + m then w t + d (t - base) else w t := by
  induction m with
  | zero =>
    funext t
    have : ¬ (base ≤ t ∧ t < base) := by omega
    simp [forLoop_zero, this]
  | succ k ih =>
    rw [forLoop_succ, ih]
    funext t
    by_cases htk : t = base + k
    · subst htk
      have h1 : ¬ (base ≤ base + k ∧ base + k < base + k) := by omega
      have h2 : base ≤ base + k ∧ base + k < base + (k + 1) := by omega
      simp [h1, h2]
    · rw [Function.update_noteq htk]
      by_cases hlt : base ≤ t ∧ t < base + k
      · have h2 : base ≤ t ∧ t < base + (k + 1) := by omega
        simp [hlt, h2]
      · have h2 : ¬ (base ≤ t ∧ t < base + (k + 1)) := by omega
        simp [hlt, h2]

/-- The row-major weight update `w[i*m + j] += c i j` for `i < n`, `j < m`
adds `c (t / m) (t % m)` to every cell `t < n * m` and leaves the other cells. -/
theorem forLoop_matrix_update (n m : Nat) (c : Nat → Nat → K) (w : Nat → K) :
    forLoop n (fun i w =>
      forLoop m (fun j w => Function.update w (i * m + j) (w (i * m + j) + c i j)) w) w
      = fun t => if t < n * m then w t + c (t / m) (t % m) else w t := by
  induction n with
  | zero => funext t; simp [forLoop_zero]
  | succ k ih =>
    rw [forLoop_succ, ih, forLoop_row_update]
    funext t
    by_cases hrow : k * m ≤ t ∧ t < k * m + m
    · have hm : 0 < m := by
        rcases Nat.eq_zero_or_pos m with h | h
        · subst h; omega
        · exact h
      have hdiv : t / m = k := by
        apply Nat.div_eq_of_lt_le
        · exact hrow.1
        · rw [Nat.succ_mul]; exact hrow.2
      have hmod : t % m = t - k * m := by
        have := Nat.div_add_mod t m
        rw [hdiv, Nat.mul_comm] at this
        omega
      have h1 : ¬ t < k * m := by omega
      have h2 : t < (k + 1) * m := by rw [Nat.succ_mul]; exact hrow.2
      simp [hrow, h1, h2, hdiv, hmod]
    · by_cases hlt : t < k * m
      · have h2 : t < (k + 1) * m := by rw [Nat.succ_mul]; omega
        simp [hrow, hlt, h2]
      · have h2 : ¬ t < (k + 1) * m := by rw [Nat.succ_mul]; omega
        simp [hrow, hlt, h2]

end LoopLemmas

/-! ## Loop lemmas that use no law of arithmetic -/

section LoopLemmasOps

/-- An accumulation `b[i] += f j` over `j < n`, as the left-to-right fold of `+`. -/
theorem forLoop_accumulate_fold {α : Type} [Add α] (n i : Nat) (f : Nat → α) (b : Nat → α) :
    forLoop n (fun j b => Function.update b i (b i + f j)) b
      = Function.update b i (forLoop n (fun j acc => acc + f j) (b i)) := by
  induction n with
  | zero => simp [forLoop_zero]
  | succ m ih =>
    rw [forLoop_succ, ih, forLoop_succ]
    simp

/-- The row pattern `b[i] = 0; for j: b[i] += f i j; b[i] = fin i b[i]` run for `i < n`
fills cell `i` with `fin i` of the left-to-right sum started at `0`. -/
theorem forLoop_rows_fold {α : Type} [Zero α] [Add α] (n m : Nat) (f : Nat → Nat → α)
    (fin : Nat → α → α) (b : Nat → α) :
    forLoop n (fun i b =>
      let b := Function.update b i 0
      let b := forLoop m (fun j b => Function.update b i (b i + f i j)) b
      Function.update b i (fin i (b i))) b
      = fun t => if t < n then fin t (forLoop m (fun j acc => acc + f t j) 0) else b t := by
  induction n with
  | zero => funext t; simp [forLoop_zero]
  | succ k ih =>
    rw [forLoop_succ, ih]
    funext t
    simp only [forLoop_accumulate_fold, Function.update_same, Function.update_idem]
    by_cases htk : t = k
    · subst htk; simp
    · rw [Function.update_noteq htk]
      by_cases hlt : t < k
      · simp [hlt, Nat.lt_succ_of_lt hlt]
      · have : ¬ t < k + 1 := by omega
        simp [hlt, this]

/-- One row of a weight update: `w[base + j] += d j` for `j < m`. -/
theorem forLoop_row_add {α : Type} [Add α] (m base : Nat) (d : Nat → α) (w : Nat → α) :
    forLoop m (fun j w => Function.update w (base + j) (w (base + j) + d j)) w
      = fun t => if base ≤ t ∧ t < base + m then w t + d (t - base) else w t := by
  induction m with
  | zero =>
    funext t
    have : ¬ (base ≤ t ∧ t < base) := by omega
    simp [forLoop_zero, this]
  | succ k ih =>
    rw [forLoop_succ, ih]
    funext t
    by_cases htk : t = base + k
    · subst htk
      have h1 : ¬ (base ≤ base + k ∧ base + k < base + k) := by omega
      have h2 : base ≤ base + k ∧ base + k < base + (k + 1) := by omega
      simp [h1, h2]
    · rw [Function.update_noteq htk]
      by_cases hlt : base ≤ t ∧ t < base + k
      · have h2 : base ≤ t ∧ t < base + (k + 1) := by omega
        simp [hlt, h2]
      · have h2 : ¬ (base ≤ t ∧ t < base + (k + 1)) := by omega
        simp [hlt, h2]

/-- The row-major weight update `w[i*m + j] += c i j` for `i < n`, `j < m`
adds `c (t / m) (t % m)` to every cell `t < n * m` and leaves the other cells. -/
theorem forLoop_matrix_add {α : Type} [Add α] (n m : Nat) (c : Nat → Nat → α) (w : Nat → α) :
    forLoop n (fun i w =>
      forLoop m (fun j w => Function.update w (i * m + j) (w (i * m + j) + c i j)) w) w
      = fun t => if t < n * m then w t + c (t / m) (t % m) else w t := by
  induction n with
  | zero => funext t; simp [forLoop_zero]
  | succ k ih =>
    rw [forLoop_succ, ih, forLoop_row_add]
    funext t
    by_cases hrow : k * m ≤ t ∧ t < k * m + m
    · have hm : 0 < m := by
        rcases Nat.eq_zero_or_pos m with h | h
        · subst h; omega
        · exact h
      have hdiv : t / m = k := by
        apply Nat.div_eq_of_lt_le
        · exact hrow.1
        · rw [Nat.succ_mul]; exact hrow.2
      have hmod : t % m = t - k * m := by
        have := Nat.div_add_mod t m
        rw [hdiv, Nat.mul_comm] at this
        omega
      have h1 : ¬ t < k * m := by omega
      have h2 : t < (k + 1) * m := by rw [Nat.succ_mul]; exact hrow.2
      simp [hrow, h1, h2, hdiv, hmod]
    · by_cases hlt : t < k * m
      · have h2 : t < (k + 1) * m := by rw [Nat.succ_mul]; omega
        simp [hrow, hlt, h2]
      · have h2 : ¬ t < (k + 1) * m := by rw [Nat.succ_mul]; omega
        simp [hrow, hlt, h2]

end LoopLemmasOps

/-! ## Closed forms of the forward and backward pass -/

section ClosedForms

variable {K : Type} [LinearOrderedField K]

theorem codeTarget_eq_oneHot (label : Int) (h : 0 ≤ label) :
    (codeTarget label : Nat → K) = oneHot label.toNat := by
  funext k
  unfold codeTarget oneHot
  have : ((k : Int) = label) ↔ (k = label.toNat) := by omega
  simp only [this]

/-- Hidden buffer after `forward`. -/
theorem forward_fst (exp : K → K) (x Wh Wo h0 o0 : Nat → K) :
    (forward exp x Wh Wo h0 o0).1 = fun t =>
      if t < HIDDEN_SIZE then
        sigmoid exp (∑ j in Finset.range INPUT_SIZE, x j * Wh (t * INPUT_SIZE + j))
      else h0 t := by
  unfold forward
  exact forLoop_rows HIDDEN_SIZE INPUT_SIZE (fun i j => x j * Wh (i * INPUT_SIZE + j))
    (fun _ v => sigmoid exp v) h0

/-- Output buffer after `forward`, in terms of the hidden buffer it produced. -/
theorem forward_snd (exp : K → K) (x Wh Wo h0 o0 : Nat → K) :
    (forward exp x Wh Wo h0 o0).2 = fun t =>
      if t < OUTPUT_SIZE then
        sigmoid exp (∑ j in Finset.range HIDDEN_SIZE,
          (forward exp x Wh Wo h0 o0).1 j * Wo (t * HIDDEN_SIZE + j))
      else o0 t := by
  unfold forward
  exact forLoop_rows OUTPUT_SIZE HIDDEN_SIZE _ (fun _ v => sigmoid exp v) o0

/-- Output weights after `backprop`. -/
theorem backprop_snd (lr : K) (x : Nat → K) (label : Int) (Wh Wo hidden output oe0 he0 : Nat → K) :
    (backprop lr x label Wh Wo hidden output oe0 he0).2 = fun t =>
      if t < OUTPUT_SIZE * HIDDEN_SIZE then
        Wo t + lr * oErr (codeTarget label) output (t / HIDDEN_SIZE) * hidden (t % HIDDEN_SIZE)
      else Wo t := by
  unfold backprop
  simp only []
  rw [forLoop_matrix_update, forLoop_cells]
  funext t
  by_cases ht : t < OUTPUT_SIZE * HIDDEN_SIZE
  · have hH : 0 < HIDDEN_SIZE := by decide
    have hdiv : t / HIDDEN_SIZE < OUTPUT_SIZE := by
      rw [Nat.div_lt_iff_lt_mul hH]; exact ht
    simp [ht, hdiv, oErr, codeTarget, d_sigmoid]
  · simp [ht]

/-- Hidden weights after `backprop`; the hidden error is computed from the
output weights `Wo` the call received. -/
theorem backprop_fst (lr : K) (x : Nat → K) (label : Int) (Wh Wo hidden output oe0 he0 : Nat → K) :
    (backprop lr x label Wh Wo hidden output oe0 he0).1 = fun t =>
      if t < HIDDEN_SIZE * INPUT_SIZE then
        Wh t + lr * hErr (oErr (codeTarget label) output) Wo hidden (t / INPUT_SIZE)
          * x (t % INPUT_SIZE)
      else Wh t := by
  unfold backprop
  simp only []
  rw [forLoop_matrix_update, forLoop_cells]
  rw [forLoop_rows HIDDEN_SIZE OUTPUT_SIZE _ (fun i v => v * d_sigmoid (hidden i)) he0]
  funext t
  by_cases ht : t < HIDDEN_SIZE * INPUT_SIZE
  · have hI : 0 < INPUT_SIZE := by decide
    have hdiv : t / INPUT_SIZE < HIDDEN_SIZE := by
      rw [Nat.div_lt_iff_lt_mul hI]; exact ht
    have hsum : ∀ i : Nat,
        (∑ k in Finset.range OUTPUT_SIZE,
          (if k < OUTPUT_SIZE then
            ((if (k : Int) = label then (1 : K) else 0) - output k) * d_sigmoid (output k)
          else oe0 k) * Wo (k * HIDDEN_SIZE + i))
        = ∑ k in Finset.range OUTPUT_SIZE,
            oErr (codeTarget label) output k * Wo (k * HIDDEN_SIZE + i) := by
      intro i
      apply Finset.sum_congr rfl
      intro k hk
      have hk2 : k < OUTPUT_SIZE := Finset.mem_range.mp hk
      simp [hk2, oErr, codeTarget, d_sigmoid]
    simp only [ht, hdiv, if_true, hsum, hErr]
    simp only [d_sigmoid]
  · simp [ht]

/-- Row-major offsets: `(k * m + i) / m = k` and `(k * m + i) % m = i` for `i < m`. -/
theorem row_major_div_mod (k m i : Nat) (hi : i < m) :
    (k * m + i) / m = k ∧ (k * m + i) % m = i := by
  have hm : 0 < m := by omega
  constructor
  · rw [Nat.mul_comm, Nat.mul_add_div hm, Nat.div_eq_of_lt hi, Nat.add_zero]
  · rw [Nat.mul_comm, Nat.mul_add_mod, Nat.mod_eq_of_lt hi]

theorem row_major_lt (k n m i : Nat) (hk : k < n) (hi : i < m) : k * m + i < n * m := by
  calc k * m + i < k * m + m := by omega
    _ = (k + 1) * m := by rw [Nat.succ_mul]
    _ ≤ n * m := Nat.mul_le_mul_right m hk

/-- Output weight `(k, i)` after `backprop`, for any label. -/
theorem backprop_o_weight (lr : K) (x : Nat → K) (label : Int)
    (Wh Wo hidden output oe0 he0 : Nat → K) (k i : Nat) (hk : k < OUTPUT_SIZE)
    (hi : i < HIDDEN_SIZE) :
    (backprop lr x label Wh Wo hidden output oe0 he0).2 (k * HIDDEN_SIZE + i)
      = Wo (k * HIDDEN_SIZE + i) + lr * oErr (codeTarget label) output k * hidden i := by
  rw [backprop_snd]
  have hlt := row_major_lt k OUTPUT_SIZE HIDDEN_SIZE i hk hi
  obtain ⟨hd, hm⟩ := row_major_div_mod k HIDDEN_SIZE i hi
  simp only [hlt, if_true, hd, hm]

/-- Hidden weight `(i, j)` after `backprop`, for any label. -/
theorem backprop_h_weight (lr : K) (x : Nat → K) (label : Int)
    (Wh Wo hidden output oe0 he0 : Nat → K) (i j : Nat) (hi : i < HIDDEN_SIZE)
    (hj : j < INPUT_SIZE) :
    (backprop lr x label Wh Wo hidden output oe0 he0).1 (i * INPUT_SIZE + j)
      = Wh (i * INPUT_SIZE + j)
        + lr * hErr (oErr (codeTarget label) output) Wo hidden i * x j := by
  rw [backprop_fst]
  have hlt := row_major_lt i HIDDEN_SIZE INPUT_SIZE j hi hj
  obtain ⟨hd, hm⟩ := row_major_div_mod i INPUT_SIZE j hj
  simp only [hlt, if_true, hd, hm]

/-- With rate `0` every `+=` of `backprop` adds `0`. -/
theorem backprop_zero (x : Nat → K) (label : Int) (Wh Wo hidden output oe0 he0 : Nat → K) :
    backprop 0 x label Wh Wo hidden output oe0 he0 = (Wh, Wo) := by
  apply Prod.ext
  · rw [backprop_fst]
    funext t
    simp
  · rw [backprop_snd]
    funext t
    simp

end ClosedForms

/-! ## Forward and backward pass: the contracts -/

section PassContracts

variable {K : Type} [LinearOrderedField K]

/-- C1: `forward` writes `hidden[i] = sigmoid(Σ_j x[j]·Wh[i·INPUT_SIZE+j])` for every
`i < HIDDEN_SIZE` and `output[k] = sigmoid(Σ_j hidden[j]·Wo[k·HIDDEN_SIZE+j])` for every
`k < OUTPUT_SIZE`, with no bias term, and these values do not depend on the previous
contents of the hidden/output buffers. -/
theorem forward_computes_layers (exp : K → K) (x Wh Wo h0 o0 : Nat → K) :
    (∀ i, i < HIDDEN_SIZE → (forward exp x Wh Wo h0 o0).1 i
        = sigmoid exp (∑ j in Finset.range INPUT_SIZE, x j * Wh (i * INPUT_SIZE + j))) ∧
    (∀ k, k < OUTPUT_SIZE → (forward exp x Wh Wo h0 o0).2 k
        = sigmoid exp (∑ j in Finset.range HIDDEN_SIZE,
            (forward exp x Wh Wo h0 o0).1 j * Wo (k * HIDDEN_SIZE + j))) ∧
    (∀ h1 o1 : Nat → K,
      (∀ i, i < HIDDEN_SIZE →
        (forward exp x Wh Wo h1 o1).1 i = (forward exp x Wh Wo h0 o0).1 i) ∧
      (∀ k, k < OUTPUT_SIZE →
        (forward exp x Wh Wo h1 o1).2 k = (forward exp x Wh Wo h0 o0).2 k)) := by
  have hid : ∀ (a b : Nat → K) i, i < HIDDEN_SIZE → (forward exp x Wh Wo a b).1 i
      = sigmoid exp (∑ j in Finset.range INPUT_SIZE, x j * Wh (i * INPUT_SIZE + j)) := by
    intro a b i hi
    rw [forward_fst]
    simp only [hi, if_true]
  have out : ∀ (a b : Nat → K) k, k < OUTPUT_SIZE → (forward exp x Wh Wo a b).2 k
      = sigmoid exp (∑ j in Finset.range HIDDEN_SIZE,
          (forward exp x Wh Wo a b).1 j * Wo (k * HIDDEN_SIZE + j)) := by
    intro a b k hk
    rw [forward_snd]
    simp only [hk, if_true]
  refine ⟨hid h0 o0, out h0 o0, ?_⟩
  intro h1 o1
  refine ⟨fun i hi => by rw [hid h1 o1 i hi, hid h0 o0 i hi], ?_⟩
  intro k hk
  have hs : (∑ j in Finset.range HIDDEN_SIZE,
        (forward exp x Wh Wo h1 o1).1 j * Wo (k * HIDDEN_SIZE + j))
      = ∑ j in Finset.range HIDDEN_SIZE,
        (forward exp x Wh Wo h0 o0).1 j * Wo (k * HIDDEN_SIZE + j) := by
    apply Finset.sum_congr rfl
    intro j hj
    have hj2 : j < HIDDEN_SIZE := Finset.mem_range.mp hj
    rw [hid h1 o1 j hj2, hid h0 o0 j hj2]
  rw [out h1 o1 k hk, out h0 o0 k hk, hs]

/-- C2: for a label in `[0, OUTPUT_SIZE)`, `backprop` leaves every output weight equal to
`Wo[k,i] + η·oErr[k]·hidden[i]`, where `oErr[k] = (target[k] − output[k])·output[k]·(1 − output[k])`
and `target` is the one-hot vector of the label. -/
theorem backprop_output_weights (lr : K) (x : Nat → K) (label : Int)
    (Wh Wo hidden output oe0 he0 : Nat → K)
    (hlabel : 0 ≤ label ∧ label < (OUTPUT_SIZE : Int))
    (k i : Nat) (hk : k < OUTPUT_SIZE) (hi : i < HIDDEN_SIZE) :
    (backprop lr x label Wh Wo hidden output oe0 he0).2 (k * HIDDEN_SIZE + i)
      = Wo (k * HIDDEN_SIZE + i) + lr * oErr (oneHot label.toNat) output k * hidden i := by
  rw [backprop_o_weight lr x label Wh Wo hidden output oe0 he0 k i hk hi,
    codeTarget_eq_oneHot label hlabel.1]

/-- Witness of C2: label `3`, all activations `1/2`, zero weights: the output weight
`(3, 0)` becomes `0 + 3/10 · 1/8 · 1/2 = 3/160`. -/
theorem backprop_output_weights_witness :
    (0 ≤ (3 : Int) ∧ (3 : Int) < (OUTPUT_SIZE : Int)) ∧ 3 < OUTPUT_SIZE ∧ 0 < HIDDEN_SIZE ∧
    (backprop (3 / 10 : ℚ) (fun _ => 0) 3 (fun _ => 0) (fun _ => 0) (fun _ => 1 / 2)
      (fun _ => 1 / 2) (fun _ => 0) (fun _ => 0)).2 (3 * HIDDEN_SIZE + 0) = 3 / 160 := by
  refine ⟨by decide, by decide, by decide, ?_⟩
  rw [backprop_output_weights (3 / 10 : ℚ) (fun _ => 0) 3 (fun _ => 0) (fun _ => 0)
    (fun _ => 1 / 2) (fun _ => 1 / 2) (fun _ => 0) (fun _ => 0) (by decide) 3 0
    (by decide) (by decide)]
  have h3 : (3 : Int).toNat = 3 := rfl
  norm_num [oErr, oneHot, h3]

/-- C3: for a label in `[0, OUTPUT_SIZE)`, `backprop` leaves every hidden weight equal to
`Wh[i,j] + η·hErr[i]·x[j]`, where `hErr[i] = (Σ_k oErr[k]·Wo[k,i])·hidden[i]·(1 − hidden[i])`
is computed from the output weights `Wo` as they were before this call updated them. -/
theorem backprop_hidden_weights (lr : K) (x : Nat → K) (label : Int)
    (Wh Wo hidden output oe0 he0 : Nat → K)
    (hlabel : 0 ≤ label ∧ label < (OUTPUT_SIZE : Int))
    (i j : Nat) (hi : i < HIDDEN_SIZE) (hj : j < INPUT_SIZE) :
    (backprop lr x label Wh Wo hidden output oe0 he0).1 (i * INPUT_SIZE + j)
      = Wh (i * INPUT_SIZE + j)
        + lr * hErr (oErr (oneHot label.toNat) output) Wo hidden i * x j := by
  rw [backprop_h_weight lr x label Wh Wo hidden output oe0 he0 i j hi hj,
    codeTarget_eq_oneHot label hlabel.1]

/-- Witness of C3: label `3`, input and output weights all `1`, activations all `1/2`:
`oErr` is `1/8` at the label and `-1/8` at the `99` other units, so `hErr[0] = -49/16`
and the hidden weight `(0, 0)` becomes `0 + 3/10 · (-49/16) · 1 = -147/160`. -/
theorem backprop_hidden_weights_witness :
    (0 ≤ (3 : Int) ∧ (3 : Int) < (OUTPUT_SIZE : Int)) ∧ 0 < HIDDEN_SIZE ∧ 0 < INPUT_SIZE ∧
    (backprop (3 / 10 : ℚ) (fun _ => 1) 3 (fun _ => 0) (fun _ => 1) (fun _ => 1 / 2)
      (fun _ => 1 / 2) (fun _ => 0) (fun _ => 0)).1 (0 * INPUT_SIZE + 0) = -147 / 160 := by
  refine ⟨by decide, by decide, by decide, ?_⟩
  rw [backprop_hidden_weights (3 / 10 : ℚ) (fun _ => 1) 3 (fun _ => 0) (fun _ => 1)
    (fun _ => 1 / 2) (fun _ => 1 / 2) (fun _ => 0) (fun _ => 0) (by decide) 0 0
    (by decide) (by decide)]
  have h3 : (3 : Int).toNat = 3 := rfl
  have hmem : 3 ∈ Finset.range OUTPUT_SIZE := by
    rw [Finset.mem_range]; decide
  have hcard : ((OUTPUT_SIZE : Nat) : ℚ) = 100 := by norm_num [OUTPUT_SIZE]
  simp only [hErr, oErr, oneHot, h3, mul_one, ← Finset.sum_mul, Finset.sum_sub_distrib,
    Finset.sum_ite_eq', hmem, if_true, Finset.sum_const, Finset.card_range, nsmul_eq_mul, hcard]
  norm_num

/-- C5: `backprop` run with learning rate `0` returns both weight arrays exactly as it
received them. -/
theorem backprop_zero_rate (x : Nat → K) (label : Int)
    (Wh Wo hidden output oe0 he0 : Nat → K) :
    backprop 0 x label Wh Wo hidden output oe0 he0 = (Wh, Wo) := by
  apply Prod.ext
  · rw [backprop_fst]
    funext t
    simp
  · rw [backprop_snd]
    funext t
    simp

end PassContracts

/-! ## Arg-max scan, sigmoid range, labels out of range -/

section ScanAndRange

variable {K : Type} [LinearOrderedField K]

/-- Invariant of the arg-max scan after the indices `1, …, n` have been visited: the
state is `(p, o p)` where `p ≤ n` is the first index at which `o` is largest on `0..n`. -/
theorem argmax_scan (o : Nat → K) (n : Nat) :
    (forLoop n (fun t (st : Nat × K) =>
        if o (1 + t) > st.2 then (1 + t, o (1 + t)) else st) (0, o 0)).2
      = o (forLoop n (fun t (st : Nat × K) =>
        if o (1 + t) > st.2 then (1 + t, o (1 + t)) else st) (0, o 0)).1 ∧
    (forLoop n (fun t (st : Nat × K) =>
        if o (1 + t) > st.2 then (1 + t, o (1 + t)) else st) (0, o 0)).1 ≤ n ∧
    (∀ j, j ≤ n → o j ≤ o (forLoop n (fun t (st : Nat × K) =>
        if o (1 + t) > st.2 then (1 + t, o (1 + t)) else st) (0, o 0)).1) ∧
    (∀ j, j < (forLoop n (fun t (st : Nat × K) =>
        if o (1 + t) > st.2 then (1 + t, o (1 + t)) else st) (0, o 0)).1 →
      o j < o (forLoop n (fun t (st : Nat × K) =>
        if o (1 + t) > st.2 then (1 + t, o (1 + t)) else st) (0, o 0)).1) := by
  induction n with
  | zero =>
    refine ⟨rfl, Nat.le_refl 0, ?_, ?_⟩
    · intro j hj
      have : j = 0 := by omega
      subst this
      exact le_refl _
    · intro j hj
      exact absurd hj (Nat.not_lt_zero j)
  | succ m ih =>
    obtain ⟨h1, h2, h3, h4⟩ := ih
    rw [forLoop_succ]
    generalize forLoop m (fun t (st : Nat × K) =>
        if o (1 + t) > st.2 then (1 + t, o (1 + t)) else st) (0, o 0) = st at h1 h2 h3 h4
    by_cases hgt : o (1 + m) > st.2
    · simp only [hgt, if_true]
      refine ⟨trivial, by omega, ?_, ?_⟩
      · intro j hj
        by_cases hjm : j = 1 + m
        · rw [hjm]
        · have hle := h3 j (by omega)
          rw [← h1] at hle
          exact le_of_lt (lt_of_le_of_lt hle hgt)
      · intro j hj
        have hle := h3 j (by omega)
        rw [← h1] at hle
        exact lt_of_le_of_lt hle hgt
    · simp only [hgt, if_false]
      refine ⟨h1, by omega, ?_, h4⟩
      intro j hj
      by_cases hjm : j = 1 + m
      · rw [hjm, ← h1]
        exact not_lt.mp hgt
      · exact h3 j (by omega)

/-- The sigmoid of any value lies strictly between 0 and 1 when `exp` is positive. -/
theorem sigmoid_mem_Ioo (exp : K → K) (hexp : ∀ v, 0 < exp v) (v : K) :
    0 < sigmoid exp v ∧ sigmoid exp v < 1 := by
  unfold sigmoid
  have hpos : 0 < exp (-v) := hexp (-v)
  have hden : 0 < 1 + exp (-v) := by linarith
  refine ⟨div_pos one_pos hden, ?_⟩
  rw [div_lt_one hden]
  linarith

/-- The values `forward` stores below the layer sizes do not depend on the previous
contents of the two buffers. -/
theorem forward_buffers_irrelevant (exp : K → K) (x Wh Wo h0 o0 h1 o1 : Nat → K) :
    (∀ i, i < HIDDEN_SIZE →
      (forward exp x Wh Wo h1 o1).1 i = (forward exp x Wh Wo h0 o0).1 i) ∧
    (∀ k, k < OUTPUT_SIZE →
      (forward exp x Wh Wo h1 o1).2 k = (forward exp x Wh Wo h0 o0).2 k) := by
  have hid : ∀ i, i < HIDDEN_SIZE →
      (forward exp x Wh Wo h1 o1).1 i = (forward exp x Wh Wo h0 o0).1 i := by
    intro i hi
    rw [forward_fst, forward_fst]
    simp only [hi, if_true]
  refine ⟨hid, ?_⟩
  intro k hk
  have hs : (∑ j in Finset.range HIDDEN_SIZE,
        (forward exp x Wh Wo h1 o1).1 j * Wo (k * HIDDEN_SIZE + j))
      = ∑ j in Finset.range HIDDEN_SIZE,
        (forward exp x Wh Wo h0 o0).1 j * Wo (k * HIDDEN_SIZE + j) := by
    apply Finset.sum_congr rfl
    intro j hj
    rw [hid j (Finset.mem_range.mp hj)]
  rw [forward_snd, forward_snd exp x Wh Wo h0 o0]
  simp only [hk, if_true, hs]

/-- C6: the label `test_net` predicts for an output vector is the smallest index at which
the vector attains its maximum over `[0, OUTPUT_SIZE)`: no entry exceeds the predicted one
and every earlier entry is strictly smaller. In particular a vector beginning
`[0.5, 0.5, 0.3, …]` with no larger later entry is predicted as index 0. -/
theorem predict_first_max (o : Nat → K) :
    (predict o).1 < OUTPUT_SIZE ∧
    (∀ j, j < OUTPUT_SIZE → o j ≤ o (predict o).1) ∧
    (∀ j, j < (predict o).1 → o j < o (predict o).1) ∧
    (o 0 = 1 / 2 → o 1 = 1 / 2 → o 2 = 3 / 10 → (∀ j, j < OUTPUT_SIZE → o j ≤ 1 / 2) →
      (predict o).1 = 0) := by
  obtain ⟨_, h2, h3, h4⟩ := argmax_scan o (OUTPUT_SIZE - 1)
  have hp : predict o = forLoop (OUTPUT_SIZE - 1) (fun t (st : Nat × K) =>
      if o (1 + t) > st.2 then (1 + t, o (1 + t)) else st) (0, o 0) := rfl
  rw [← hp] at h2 h3 h4
  have hO : OUTPUT_SIZE - 1 < OUTPUT_SIZE := by decide
  refine ⟨lt_of_le_of_lt h2 hO, fun j hj => h3 j (by omega), h4, ?_⟩
  intro h0 _ _ hmax
  by_contra hne
  have hlt := h4 0 (Nat.pos_of_ne_zero hne)
  have hle := hmax (predict o).1 (lt_of_le_of_lt h2 hO)
  rw [h0] at hlt
  exact absurd hlt (not_lt.mpr hle)

/-- C7, amended: in exact real arithmetic with the real exponential, every hidden and
every output activation produced by `forward` lies strictly between 0 and 1, and these
values are the same whatever the buffers held before: they are a function of
`(x, Wh, Wo)` only. (In binary64 arithmetic an activation can be exactly `1.0`.) -/
theorem forward_activations_in_unit_interval (x Wh Wo h0 o0 : Nat → ℝ) :
    (∀ i, i < HIDDEN_SIZE →
      0 < (forward Real.exp x Wh Wo h0 o0).1 i ∧ (forward Real.exp x Wh Wo h0 o0).1 i < 1) ∧
    (∀ k, k < OUTPUT_SIZE →
      0 < (forward Real.exp x Wh Wo h0 o0).2 k ∧ (forward Real.exp x Wh Wo h0 o0).2 k < 1) ∧
    (∀ h1 o1 : Nat → ℝ,
      (∀ i, i < HIDDEN_SIZE →
        (forward Real.exp x Wh Wo h1 o1).1 i = (forward Real.exp x Wh Wo h0 o0).1 i) ∧
      (∀ k, k < OUTPUT_SIZE →
        (forward Real.exp x Wh Wo h1 o1).2 k = (forward Real.exp x Wh Wo h0 o0).2 k)) := by
  refine ⟨?_, ?_, fun h1 o1 => forward_buffers_irrelevant Real.exp x Wh Wo h0 o0 h1 o1⟩
  · intro i hi
    rw [forward_fst]
    simp only [hi, if_true]
    exact sigmoid_mem_Ioo Real.exp Real.exp_pos _
  · intro k hk
    rw [forward_snd]
    simp only [hk, if_true]
    exact sigmoid_mem_Ioo Real.exp Real.exp_pos _

/-- C8, as the code behaves: for a label outside `[0, OUTPUT_SIZE)` `backprop` raises no
condition; it carries out the weight update against the all-zero target:
`Wo[k,i] += η·(0 − output[k])·output[k]·(1 − output[k])·hidden[i]` and
`Wh[i,j] += η·hErr[i]·x[j]` with `hErr` formed from that output error. -/
theorem backprop_label_out_of_range (lr : K) (x : Nat → K) (label : Int)
    (Wh Wo hidden output oe0 he0 : Nat → K)
    (hlabel : label < 0 ∨ (OUTPUT_SIZE : Int) ≤ label) :
    (∀ k i, k < OUTPUT_SIZE → i < HIDDEN_SIZE →
      (backprop lr x label Wh Wo hidden output oe0 he0).2 (k * HIDDEN_SIZE + i)
        = Wo (k * HIDDEN_SIZE + i) + lr * oErr (fun _ => 0) output k * hidden i) ∧
    (∀ i j, i < HIDDEN_SIZE → j < INPUT_SIZE →
      (backprop lr x label Wh Wo hidden output oe0 he0).1 (i * INPUT_SIZE + j)
        = Wh (i * INPUT_SIZE + j)
          + lr * hErr (oErr (fun _ => 0) output) Wo hidden i * x j) := by
  have hsum : ∀ i, hErr (oErr (codeTarget label) output) Wo hidden i
      = hErr (oErr (fun _ => 0) output) Wo hidden i := by
    intro i
    unfold hErr
    have hs : (∑ k in Finset.range OUTPUT_SIZE,
          oErr (codeTarget label) output k * Wo (k * HIDDEN_SIZE + i))
        = ∑ k in Finset.range OUTPUT_SIZE,
          oErr (fun _ => 0) output k * Wo (k * HIDDEN_SIZE + i) := by
      apply Finset.sum_congr rfl
      intro k hk
      have hk2 : k < OUTPUT_SIZE := Finset.mem_range.mp hk
      have hne : ¬ ((k : Int) = label) := by omega
      simp only [oErr, codeTarget, hne, if_false]
    rw [hs]
  constructor
  · intro k i hk hi
    have hne : ¬ ((k : Int) = label) := by omega
    rw [backprop_o_weight lr x label Wh Wo hidden output oe0 he0 k i hk hi]
    simp only [oErr, codeTarget, hne, if_false]
  · intro i j hi hj
    rw [backprop_h_weight lr x label Wh Wo hidden output oe0 he0 i j hi hj, hsum]

/-- Witness of the amended C8 at label `100 = OUTPUT_SIZE`. -/
theorem backprop_label_out_of_range_witness :
    ((100 : Int) < 0 ∨ (OUTPUT_SIZE : Int) ≤ 100) ∧
    (backprop (3 / 10 : ℚ) (fun _ => 0) 100 (fun _ => 0) (fun _ => 0) (fun _ => 1 / 2)
      (fun _ => 1 / 2) (fun _ => 0) (fun _ => 0)).2 (0 * HIDDEN_SIZE + 0)
      = 0 + 3 / 10 * oErr (fun _ => 0) (fun _ => 1 / 2) 0 * (1 / 2) :=
  ⟨Or.inr (by decide),
    (backprop_label_out_of_range (3 / 10 : ℚ) (fun _ => 0) 100 (fun _ => 0) (fun _ => 0)
      (fun _ => 1 / 2) (fun _ => 1 / 2) (fun _ => 0) (fun _ => 0) (Or.inr (by decide))).1 0 0
      (by decide) (by decide)⟩

/-- Counterexample to C8 as stated: called with the label `100`, which is outside
`[0, OUTPUT_SIZE)`, and with label `-1`, `backprop` does not leave the weights alone: the
output weight `(0, 0)` moves from `0` to `-3/160`. -/
theorem backprop_out_of_range_not_rejected :
    (OUTPUT_SIZE : Int) ≤ 100 ∧ (-1 : Int) < 0 ∧
    (backprop (3 / 10 : ℚ) (fun _ => 0) 100 (fun _ => 0) (fun _ => 0) (fun _ => 1 / 2)
      (fun _ => 1 / 2) (fun _ => 0) (fun _ => 0)).2 (0 * HIDDEN_SIZE + 0) = -3 / 160 ∧
    (backprop (3 / 10 : ℚ) (fun _ => 0) (-1) (fun _ => 0) (fun _ => 0) (fun _ => 1 / 2)
      (fun _ => 1 / 2) (fun _ => 0) (fun _ => 0)).2 (0 * HIDDEN_SIZE + 0) = -3 / 160 ∧
    backprop (3 / 10 : ℚ) (fun _ => 0) 100 (fun _ => 0) (fun _ => 0) (fun _ => 1 / 2)
      (fun _ => 1 / 2) (fun _ => 0) (fun _ => 0) ≠ ((fun _ => 0), (fun _ => 0)) := by
  have h100 : (backprop (3 / 10 : ℚ) (fun _ => 0) 100 (fun _ => 0) (fun _ => 0)
      (fun _ => 1 / 2) (fun _ => 1 / 2) (fun _ => 0) (fun _ => 0)).2 (0 * HIDDEN_SIZE + 0)
      = -3 / 160 := by
    rw [backprop_o_weight _ _ _ _ _ _ _ _ _ 0 0 (by decide) (by decide)]
    norm_num [oErr, codeTarget]
  refine ⟨by decide, by decide, h100, ?_, ?_⟩
  · rw [backprop_o_weight _ _ _ _ _ _ _ _ _ 0 0 (by decide) (by decide)]
    norm_num [oErr, codeTarget]
  · intro heq
    rw [heq] at h100
    norm_num at h100

end ScanAndRange

/-! ## The training loop -/

section Training

variable {K : Type} [LinearOrderedField K]

/-- A loop adding `f j` to an accumulator for `j < n`. -/
theorem forLoop_sum (n : Nat) (f : Nat → K) (a : K) :
    forLoop n (fun j acc => acc + f j) a = a + ∑ j in Finset.range n, f j := by
  induction n with
  | zero => simp [forLoop_zero]
  | succ m ih => rw [forLoop_succ, ih, Finset.sum_range_succ, add_assoc]

/-- `backprop` reads the activation buffers only below the layer sizes. -/
theorem backprop_congr (lr : K) (x : Nat → K) (label : Int)
    (Wh Wo hidden output hidden2 output2 oe0 he0 oe1 he1 : Nat → K)
    (hh : ∀ i, i < HIDDEN_SIZE → hidden2 i = hidden i)
    (ho : ∀ k, k < OUTPUT_SIZE → output2 k = output k) :
    backprop lr x label Wh Wo hidden2 output2 oe1 he1
      = backprop lr x label Wh Wo hidden output oe0 he0 := by
  have hI : 0 < INPUT_SIZE := by decide
  have hH : 0 < HIDDEN_SIZE := by decide
  have hoe : ∀ k, k < OUTPUT_SIZE →
      oErr (codeTarget label) output2 k = oErr (codeTarget label) output k := by
    intro k hk
    simp only [oErr, ho k hk]
  apply Prod.ext
  · rw [backprop_fst, backprop_fst]
    funext t
    by_cases ht : t < HIDDEN_SIZE * INPUT_SIZE
    · have hdiv : t / INPUT_SIZE < HIDDEN_SIZE := by
        rw [Nat.div_lt_iff_lt_mul hI]; exact ht
      have hs : (∑ k in Finset.range OUTPUT_SIZE,
            oErr (codeTarget label) output2 k * Wo (k * HIDDEN_SIZE + t / INPUT_SIZE))
          = ∑ k in Finset.range OUTPUT_SIZE,
            oErr (codeTarget label) output k * Wo (k * HIDDEN_SIZE + t / INPUT_SIZE) := by
        apply Finset.sum_congr rfl
        intro k hk
        rw [hoe k (Finset.mem_range.mp hk)]
      simp only [ht, if_true, hErr, hs, hh _ hdiv]
    · simp only [ht, if_false]
  · rw [backprop_snd, backprop_snd]
    funext t
    by_cases ht : t < OUTPUT_SIZE * HIDDEN_SIZE
    · have hdiv : t / HIDDEN_SIZE < OUTPUT_SIZE := by
        rw [Nat.div_lt_iff_lt_mul hH]; exact ht
      have hmod : t % HIDDEN_SIZE < HIDDEN_SIZE := Nat.mod_lt t hH
      simp only [ht, if_true, hoe _ hdiv, hh _ hmod]
    · simp only [ht, if_false]

theorem passPrefix_succ (exp : K → K) (images : Nat → Nat → K) (labels : Nat → Int) (n : Nat)
    (W : (Nat → K) × (Nat → K)) :
    passPrefix exp images labels (n + 1) W
      = trainStep exp images labels (passPrefix exp images labels n W) n := by
  unfold passPrefix
  rw [List.range_succ, List.foldl_append]
  rfl

/-- The weights `train_sample` produces are one `trainStep`, whatever the buffers hold. -/
theorem train_sample_weights (exp : K → K) (images : Nat → Nat → K) (labels : Nat → Int)
    (oe he : Nat → K) (i : Nat) (s : TrainState K) :
    ((train_sample exp images labels oe he i s).h_weights,
      (train_sample exp images labels oe he i s).o_weights)
      = trainStep exp images labels (s.h_weights, s.o_weights) i := by
  unfold train_sample trainStep
  simp only []
  obtain ⟨h1, h2⟩ := forward_buffers_irrelevant exp (images i) s.h_weights s.o_weights
    (fun _ => 0) (fun _ => 0) s.h_layer s.o_layer
  exact backprop_congr LEARNING_RATE (images i) (labels i) s.h_weights s.o_weights _ _ _ _
    _ _ oe he h1 h2

/-- The loss `train_sample` adds to the accumulator, for a label that is not negative. -/
theorem train_sample_loss (exp : K → K) (images : Nat → Nat → K) (labels : Nat → Int)
    (oe he : Nat → K) (i : Nat) (s : TrainState K) (hl : 0 ≤ labels i) :
    (train_sample exp images labels oe he i s).total_loss
      = s.total_loss + sampleLoss exp images labels (s.h_weights, s.o_weights) i := by
  unfold train_sample sampleLoss
  simp only []
  rw [forLoop_sum, zero_add]
  obtain ⟨_, h2⟩ := forward_buffers_irrelevant exp (images i) s.h_weights s.o_weights
    (fun _ => 0) (fun _ => 0) s.h_layer s.o_layer
  have hs : (∑ j in Finset.range OUTPUT_SIZE,
        ((if (j : Int) = labels i then (1 : K) else 0)
          - (forward exp (images i) s.h_weights s.o_weights s.h_layer s.o_layer).2 j) ^ 2)
      = ∑ k in Finset.range OUTPUT_SIZE,
        (oneHot (labels i).toNat k
          - (forward exp (images i) s.h_weights s.o_weights (fun _ => 0) (fun _ => 0)).2 k) ^ 2 := by
    apply Finset.sum_congr rfl
    intro k hk
    have hc := congrFun (@codeTarget_eq_oneHot K _ (labels i) hl) k
    unfold codeTarget at hc
    rw [h2 k (Finset.mem_range.mp hk), hc]
  rw [hs]

theorem train_sample_printed (exp : K → K) (images : Nat → Nat → K) (labels : Nat → Int)
    (oe he : Nat → K) (i : Nat) (s : TrainState K) :
    (train_sample exp images labels oe he i s).printed = s.printed := rfl

/-- State of the sample loop after `n` samples: the weights. -/
theorem sample_loop_weights (exp : K → K) (images : Nat → Nat → K) (labels : Nat → Int)
    (oe he : Nat → K) (n : Nat) (s : TrainState K) :
    ((forLoop n (train_sample exp images labels oe he) s).h_weights,
      (forLoop n (train_sample exp images labels oe he) s).o_weights)
      = passPrefix exp images labels n (s.h_weights, s.o_weights) := by
  induction n with
  | zero => rfl
  | succ m ih => rw [forLoop_succ, train_sample_weights, ih, passPrefix_succ]

theorem sample_loop_printed (exp : K → K) (images : Nat → Nat → K) (labels : Nat → Int)
    (oe he : Nat → K) (n : Nat) (s : TrainState K) :
    (forLoop n (train_sample exp images labels oe he) s).printed = s.printed := by
  induction n with
  | zero => rfl
  | succ m ih => rw [forLoop_succ, train_sample_printed, ih]

/-- State of the sample loop after `n` samples: the accumulated loss. -/
theorem sample_loop_loss (exp : K → K) (images : Nat → Nat → K) (labels : Nat → Int)
    (oe he : Nat → K) (n : Nat) (s : TrainState K) (hl : ∀ i, i < n → 0 ≤ labels i) :
    (forLoop n (train_sample exp images labels oe he) s).total_loss
      = s.total_loss + ∑ i in Finset.range n, sampleLoss exp images labels
          (passPrefix exp images labels i (s.h_weights, s.o_weights)) i := by
  induction n with
  | zero => simp [forLoop_zero]
  | succ m ih =>
    rw [forLoop_succ, train_sample_loss _ _ _ _ _ _ _ (hl m (Nat.lt_succ_self m)),
      ih (fun i hi => hl i (Nat.lt_succ_of_lt hi)), sample_loop_weights,
      Finset.sum_range_succ, add_assoc]

/-- Weights after one run of the epoch body. -/
theorem train_epoch_weights (exp : K → K) (images : Nat → Nat → K) (labels : Nat → Int)
    (oe he : Nat → K) (e : Nat) (s : TrainState K) :
    ((train_epoch exp images labels oe he e s).h_weights,
      (train_epoch exp images labels oe he e s).o_weights)
      = fullPass exp images labels (s.h_weights, s.o_weights) := by
  have h := sample_loop_weights exp images labels oe he TRAIN_SIZE
    { h_weights := s.h_weights, o_weights := s.o_weights, h_layer := s.h_layer,
      o_layer := s.o_layer, total_loss := 0, printed := s.printed }
  exact h

/-- Weights after `e` epochs. -/
theorem epoch_loop_weights (exp : K → K) (images : Nat → Nat → K) (labels : Nat → Int)
    (oe he : Nat → K) (e : Nat) (s : TrainState K) :
    ((forLoop e (train_epoch exp images labels oe he) s).h_weights,
      (forLoop e (train_epoch exp images labels oe he) s).o_weights)
      = (fullPass exp images labels)^[e] (s.h_weights, s.o_weights) := by
  induction e with
  | zero => rfl
  | succ m ih =>
    rw [forLoop_succ, Function.iterate_succ_apply', ← ih, train_epoch_weights]

/-- Losses printed after `e` epochs. -/
theorem epoch_loop_printed (exp : K → K) (images : Nat → Nat → K) (labels : Nat → Int)
    (oe he : Nat → K) (e : Nat) (s : TrainState K)
    (hl : ∀ i, i < TRAIN_SIZE → 0 ≤ labels i) :
    (forLoop e (train_epoch exp images labels oe he) s).printed
      = s.printed ++ (List.range e).map
          (epochLoss exp images labels (s.h_weights, s.o_weights)) := by
  induction e with
  | zero => simp [forLoop_zero]
  | succ m ih =>
    rw [forLoop_succ, List.range_succ, List.map_append, ← List.append_assoc, ← ih]
    have hw := epoch_loop_weights exp images labels oe he m s
    generalize forLoop m (train_epoch exp images labels oe he) s = st at hw
    unfold train_epoch
    simp only [List.map_cons, List.map_nil]
    rw [sample_loop_printed, sample_loop_loss _ _ _ _ _ _ _ hl]
    simp only [zero_add, epochLoss, weightsBefore, hw]

/-- C9: `train_net` performs exactly `EPOCHS` full passes in dataset order: its final
weights are `EPOCHS` iterations of the left-to-right fold over the samples
`0, …, TRAIN_SIZE-1` of the step `W ↦ backprop(x_i, label_i, W, forward(x_i, W))`. -/
theorem train_net_weights (exp : K → K) (images : Nat → Nat → K) (labels : Nat → Int)
    (Wh Wo h0 o0 oe he : Nat → K) :
    ((train_net exp images labels Wh Wo h0 o0 oe he).1,
      (train_net exp images labels Wh Wo h0 o0 oe he).2.1)
      = (fun W => (List.range TRAIN_SIZE).foldl
          (fun W i => backprop LEARNING_RATE (images i) (labels i) W.1 W.2
            (forward exp (images i) W.1 W.2 (fun _ => 0) (fun _ => 0)).1
            (forward exp (images i) W.1 W.2 (fun _ => 0) (fun _ => 0)).2
            (fun _ => 0) (fun _ => 0)) W)^[EPOCHS] (Wh, Wo) := by
  unfold train_net
  simp only []
  rw [epoch_loop_weights]
  rfl

/-- C10: for labels that are class indices, the list of losses `train_net` reports has
one entry per epoch, and the entry of epoch `e` is
`(Σ_i Σ_k (target_i[k] − output_i[k])²) / TRAIN_SIZE`, with `target_i` the one-hot vector of
`labels[i]` and `output_i` the `forward` output for sample `i` on the weights as they stand
immediately before that sample's `backprop` in epoch `e`. -/
theorem train_net_reported_loss (exp : K → K) (images : Nat → Nat → K) (labels : Nat → Int)
    (Wh Wo h0 o0 oe he : Nat → K)
    (hl : ∀ i, i < TRAIN_SIZE → 0 ≤ labels i ∧ labels i < (OUTPUT_SIZE : Int)) :
    (train_net exp images labels Wh Wo h0 o0 oe he).2.2
      = (List.range EPOCHS).map (fun e =>
          (∑ i in Finset.range TRAIN_SIZE, ∑ k in Finset.range OUTPUT_SIZE,
            (oneHot (labels i).toNat k
              - (forward exp (images i)
                  (weightsBefore exp images labels (Wh, Wo) e i).1
                  (weightsBefore exp images labels (Wh, Wo) e i).2
                  (fun _ => 0) (fun _ => 0)).2 k) ^ 2) / (TRAIN_SIZE : K)) := by
  unfold train_net
  simp only []
  rw [epoch_loop_printed _ _ _ _ _ _ _ (fun i hi => (hl i hi).1)]
  rfl

/-- Witness of C10: every label is `3`, every pixel and every weight is `0`, and `exp`
is replaced by the constant `1`. -/
theorem train_net_reported_loss_witness :
    (∀ i, i < TRAIN_SIZE → 0 ≤ (3 : Int) ∧ (3 : Int) < (OUTPUT_SIZE : Int)) ∧
    (train_net (fun _ => (1 : ℚ)) (fun _ _ => 0) (fun _ => 3) (fun _ => 0) (fun _ => 0)
        (fun _ => 0) (fun _ => 0) (fun _ => 0) (fun _ => 0)).2.2
      = (List.range EPOCHS).map (fun e =>
          (∑ i in Finset.range TRAIN_SIZE, ∑ k in Finset.range OUTPUT_SIZE,
            (oneHot (3 : Int).toNat k
              - (forward (fun _ => (1 : ℚ)) (fun _ => 0)
                  (weightsBefore (fun _ => (1 : ℚ)) (fun _ _ => 0) (fun _ => 3)
                    ((fun _ => 0), (fun _ => 0)) e i).1
                  (weightsBefore (fun _ => (1 : ℚ)) (fun _ _ => 0) (fun _ => 3)
                    ((fun _ => 0), (fun _ => 0)) e i).2
                  (fun _ => 0) (fun _ => 0)).2 k) ^ 2) / (TRAIN_SIZE : ℚ)) :=
  ⟨fun _ _ => ⟨by decide, by decide⟩,
    train_net_reported_loss (fun _ => (1 : ℚ)) (fun _ _ => 0) (fun _ => 3) (fun _ => 0)
      (fun _ => 0) (fun _ => 0) (fun _ => 0) (fun _ => 0) (fun _ => 0)
      (fun _ _ => show 0 ≤ (3 : Int) ∧ (3 : Int) < (OUTPUT_SIZE : Int) from
        ⟨by decide, by decide⟩)⟩

end Training

/-! ## One step of gradient descent decreases the sample loss -/

section Descent

open Filter Topology

/-- A real function with negative derivative at `0` is smaller than `f 0` at all
small positive arguments. -/
theorem lt_of_hasDerivAt_neg (f : ℝ → ℝ) (D : ℝ) (hf : HasDerivAt f D 0) (hD : D < 0) :
    ∃ η0 : ℝ, 0 < η0 ∧ ∀ η : ℝ, 0 < η → η < η0 → f η < f 0 := by
  have hs := hasDerivAt_iff_tendsto_slope.mp hf
  have hev : ∀ᶠ η in 𝓝[≠] (0 : ℝ), slope f 0 η < 0 := hs.eventually (Iio_mem_nhds hD)
  rw [eventually_nhdsWithin_iff, Metric.eventually_nhds_iff] at hev
  obtain ⟨ε, hε, hball⟩ := hev
  refine ⟨ε, hε, ?_⟩
  intro η hpos hlt
  have hdist : dist η 0 < ε := by
    rw [Real.dist_eq, sub_zero, abs_of_pos hpos]; exact hlt
  have hne : η ∈ ({0} : Set ℝ)ᶜ := by
    simp only [Set.mem_compl_iff, Set.mem_singleton_iff]
    exact ne_of_gt hpos
  have hslope := hball hdist hne
  rw [slope_def_field, sub_zero, div_lt_iff₀ hpos, zero_mul] at hslope
  linarith

/-- The derivative of the sigmoid at `v` is `sigmoid v · (1 − sigmoid v)`. -/
theorem hasDerivAt_sigmoid (v : ℝ) :
    HasDerivAt (sigmoid Real.exp)
      (sigmoid Real.exp v * (1 - sigmoid Real.exp v)) v := by
  have hpos : 0 < Real.exp (-v) := Real.exp_pos _
  have hden : (1 + Real.exp (-v)) ≠ 0 := by positivity
  have h1 : HasDerivAt (fun y : ℝ => -y) (-1) v := (hasDerivAt_id v).neg
  have h2 : HasDerivAt (fun y : ℝ => Real.exp (-y)) (Real.exp (-v) * (-1)) v := h1.exp
  have h3 : HasDerivAt (fun y : ℝ => 1 + Real.exp (-y)) (Real.exp (-v) * (-1)) v :=
    h2.const_add 1
  have h4 := (hasDerivAt_const v (1 : ℝ)).div h3 hden
  have hfun : (sigmoid Real.exp) = fun y : ℝ => (1 : ℝ) / (1 + Real.exp (-y)) := rfl
  rw [hfun]
  convert h4 using 1
  field_simp
  ring

/-- Chain rule for the sigmoid of a differentiable function. -/
theorem hasDerivAt_sigmoid_comp (f : ℝ → ℝ) (f' η : ℝ) (hf : HasDerivAt f f' η) :
    HasDerivAt (fun y => sigmoid Real.exp (f y))
      (sigmoid Real.exp (f η) * (1 - sigmoid Real.exp (f η)) * f') η :=
  (hasDerivAt_sigmoid (f η)).comp η hf

theorem hasDerivAt_hiddenPre (x Wh hE : Nat → ℝ) (i : Nat) (η : ℝ) :
    HasDerivAt (fun y => hiddenPre x Wh hE y i) (dHiddenPre x hE i) η := by
  unfold hiddenPre dHiddenPre
  apply HasDerivAt.sum
  intro j _
  have h := ((((hasDerivAt_id η).mul_const (hE i)).mul_const (x j)).const_add
    (Wh (i * INPUT_SIZE + j))).const_mul (x j)
  convert h using 1
  simp

theorem hasDerivAt_hiddenAct (x Wh hE : Nat → ℝ) (i : Nat) (η : ℝ) :
    HasDerivAt (fun y => sigmoid Real.exp (hiddenPre x Wh hE y i))
      (dHiddenAct Real.exp x Wh hE η i) η := by
  unfold dHiddenAct
  exact hasDerivAt_sigmoid_comp (fun y => hiddenPre x Wh hE y i) _ η
    (hasDerivAt_hiddenPre x Wh hE i η)

theorem hasDerivAt_outputPre (x Wh Wo hE oE hid : Nat → ℝ) (k : Nat) (η : ℝ) :
    HasDerivAt (fun y => outputPre Real.exp x Wh Wo hE oE hid y k)
      (dOutputPre Real.exp x Wh Wo hE oE hid η k) η := by
  unfold outputPre dOutputPre
  apply HasDerivAt.sum
  intro j _
  have hlin : HasDerivAt (fun y : ℝ => Wo (k * HIDDEN_SIZE + j) + y * oE k * hid j)
      (oE k * hid j) η := by
    have h := (((hasDerivAt_id η).mul_const (oE k)).mul_const (hid j)).const_add
      (Wo (k * HIDDEN_SIZE + j))
    convert h using 1
    simp
  exact (hasDerivAt_hiddenAct x Wh hE j η).mul hlin

theorem hasDerivAt_lossCurve (x Wh Wo hE oE hid tgt : Nat → ℝ) (η : ℝ) :
    HasDerivAt (fun y => lossCurve Real.exp x Wh Wo hE oE hid tgt y)
      (dLossCurve Real.exp x Wh Wo hE oE hid tgt η) η := by
  unfold lossCurve dLossCurve
  apply HasDerivAt.sum
  intro k _
  have hout : HasDerivAt (fun y => sigmoid Real.exp (outputPre Real.exp x Wh Wo hE oE hid y k))
      (sigmoid Real.exp (outputPre Real.exp x Wh Wo hE oE hid η k)
        * (1 - sigmoid Real.exp (outputPre Real.exp x Wh Wo hE oE hid η k))
        * dOutputPre Real.exp x Wh Wo hE oE hid η k) η :=
    hasDerivAt_sigmoid_comp (fun y => outputPre Real.exp x Wh Wo hE oE hid y k) _ η
      (hasDerivAt_outputPre x Wh Wo hE oE hid k η)
  have h := (hout.const_sub (tgt k)).pow 2
  convert h using 1
  simp

end Descent

section DescentAlgebra

variable {K : Type} [LinearOrderedField K]

/-- Hidden activations of `forward` on the weights `backprop` returns. -/
theorem updated_hidden_act (exp : K → K) (lr : K) (x : Nat → K) (label : Int)
    (Wh Wo hidden output oe he h1 o1 : Nat → K) (j : Nat) (hj : j < HIDDEN_SIZE) :
    (forward exp x (backprop lr x label Wh Wo hidden output oe he).1
        (backprop lr x label Wh Wo hidden output oe he).2 h1 o1).1 j
      = sigmoid exp (hiddenPre x Wh
          (hErr (oErr (codeTarget label) output) Wo hidden) lr j) := by
  rw [forward_fst]
  simp only [hj, if_true, hiddenPre]
  have hs : (∑ m in Finset.range INPUT_SIZE,
        x m * (backprop lr x label Wh Wo hidden output oe he).1 (j * INPUT_SIZE + m))
      = ∑ m in Finset.range INPUT_SIZE, x m * (Wh (j * INPUT_SIZE + m)
          + lr * hErr (oErr (codeTarget label) output) Wo hidden j * x m) := by
    apply Finset.sum_congr rfl
    intro m hm
    rw [backprop_h_weight lr x label Wh Wo hidden output oe he j m hj (Finset.mem_range.mp hm)]
  rw [hs]

/-- Output activations of `forward` on the weights `backprop` returns. -/
theorem updated_output_act (exp : K → K) (lr : K) (x : Nat → K) (label : Int)
    (Wh Wo hidden output oe he h1 o1 : Nat → K) (k : Nat) (hk : k < OUTPUT_SIZE) :
    (forward exp x (backprop lr x label Wh Wo hidden output oe he).1
        (backprop lr x label Wh Wo hidden output oe he).2 h1 o1).2 k
      = sigmoid exp (outputPre exp x Wh Wo
          (hErr (oErr (codeTarget label) output) Wo hidden)
          (oErr (codeTarget label) output) hidden lr k) := by
  rw [forward_snd]
  simp only [hk, if_true, outputPre]
  have hs : (∑ j in Finset.range HIDDEN_SIZE,
        (forward exp x (backprop lr x label Wh Wo hidden output oe he).1
          (backprop lr x label Wh Wo hidden output oe he).2 h1 o1).1 j
          * (backprop lr x label Wh Wo hidden output oe he).2 (k * HIDDEN_SIZE + j))
      = ∑ j in Finset.range HIDDEN_SIZE,
        sigmoid exp (hiddenPre x Wh (hErr (oErr (codeTarget label) output) Wo hidden) lr j)
          * (Wo (k * HIDDEN_SIZE + j) + lr * oErr (codeTarget label) output k * hidden j) := by
    apply Finset.sum_congr rfl
    intro j hj
    have hj2 : j < HIDDEN_SIZE := Finset.mem_range.mp hj
    rw [updated_hidden_act exp lr x label Wh Wo hidden output oe he h1 o1 j hj2,
      backprop_o_weight lr x label Wh Wo hidden output oe he k j hk hj2]
  rw [hs]

/-- The loss after one `forward` + `backprop` with rate `η`, re-evaluated by `forward`,
is the loss curve at `η`. -/
theorem lossOn_updated (exp : K → K) (η : K) (x : Nat → K) (label : Int)
    (Wh Wo h0 o0 oe he h1 o1 : Nat → K) (hl : 0 ≤ label) :
    lossOn exp x label (updatedWeights exp η x label Wh Wo h0 o0 oe he).1
        (updatedWeights exp η x label Wh Wo h0 o0 oe he).2 h1 o1
      = lossCurve exp x Wh Wo
          (hErr (oErr (oneHot label.toNat) (forward exp x Wh Wo h0 o0).2) Wo
            (forward exp x Wh Wo h0 o0).1)
          (oErr (oneHot label.toNat) (forward exp x Wh Wo h0 o0).2)
          (forward exp x Wh Wo h0 o0).1 (oneHot label.toNat) η := by
  unfold lossOn sqLoss lossCurve updatedWeights
  apply Finset.sum_congr rfl
  intro k hk
  rw [updated_output_act exp η x label Wh Wo _ _ oe he h1 o1 k (Finset.mem_range.mp hk),
    codeTarget_eq_oneHot label hl]

/-- With rate `0` the loss curve gives the loss on the weights before the update. -/
theorem lossCurve_zero (exp : K → K) (x : Nat → K) (label : Int)
    (Wh Wo h0 o0 : Nat → K) (hl : 0 ≤ label) :
    lossCurve exp x Wh Wo
        (hErr (oErr (oneHot label.toNat) (forward exp x Wh Wo h0 o0).2) Wo
          (forward exp x Wh Wo h0 o0).1)
        (oErr (oneHot label.toNat) (forward exp x Wh Wo h0 o0).2)
        (forward exp x Wh Wo h0 o0).1 (oneHot label.toNat) 0
      = lossOn exp x label Wh Wo h0 o0 := by
  rw [← lossOn_updated exp 0 x label Wh Wo h0 o0 (fun _ => 0) (fun _ => 0) h0 o0 hl]
  unfold updatedWeights
  rw [backprop_zero]

/-- Value of the derivative of the loss curve at rate `0`, when `hid` and `out` are the
activations on the weights `(Wh, Wo)`: minus twice the squared length of the update. -/
theorem dLossCurve_zero (exp : K → K) (x Wh Wo hid out tgt : Nat → K)
    (hh : ∀ j, j < HIDDEN_SIZE →
      sigmoid exp (hiddenPre x Wh (hErr (oErr tgt out) Wo hid) 0 j) = hid j)
    (ho : ∀ k, k < OUTPUT_SIZE →
      sigmoid exp (outputPre exp x Wh Wo (hErr (oErr tgt out) Wo hid) (oErr tgt out) hid 0 k)
        = out k) :
    dLossCurve exp x Wh Wo (hErr (oErr tgt out) Wo hid) (oErr tgt out) hid tgt 0
      = -2 * ((∑ m in Finset.range INPUT_SIZE, x m * x m)
            * ∑ j in Finset.range HIDDEN_SIZE, hErr (oErr tgt out) Wo hid j ^ 2
          + ∑ k in Finset.range OUTPUT_SIZE, ∑ j in Finset.range HIDDEN_SIZE,
              (oErr tgt out k * hid j) ^ 2) := by
  have hdA : ∀ j, dHiddenPre x (hErr (oErr tgt out) Wo hid) j
      = hErr (oErr tgt out) Wo hid j * ∑ m in Finset.range INPUT_SIZE, x m * x m := by
    intro j
    unfold dHiddenPre
    rw [Finset.mul_sum]
    apply Finset.sum_congr rfl
    intro m _
    ring
  have hdZ : ∀ k, dOutputPre exp x Wh Wo (hErr (oErr tgt out) Wo hid) (oErr tgt out) hid 0 k
      = ∑ j in Finset.range HIDDEN_SIZE,
          (hid j * (1 - hid j) * (hErr (oErr tgt out) Wo hid j
              * ∑ m in Finset.range INPUT_SIZE, x m * x m) * Wo (k * HIDDEN_SIZE + j)
            + hid j * (oErr tgt out k * hid j)) := by
    intro k
    unfold dOutputPre
    apply Finset.sum_congr rfl
    intro j hj
    unfold dHiddenAct
    rw [hh j (Finset.mem_range.mp hj), hdA j]
    ring
  have hterm : ∀ k, k ∈ Finset.range OUTPUT_SIZE →
      2 * (tgt k - sigmoid exp (outputPre exp x Wh Wo (hErr (oErr tgt out) Wo hid)
            (oErr tgt out) hid 0 k))
        * -(sigmoid exp (outputPre exp x Wh Wo (hErr (oErr tgt out) Wo hid)
              (oErr tgt out) hid 0 k)
            * (1 - sigmoid exp (outputPre exp x Wh Wo (hErr (oErr tgt out) Wo hid)
              (oErr tgt out) hid 0 k))
            * dOutputPre exp x Wh Wo (hErr (oErr tgt out) Wo hid) (oErr tgt out) hid 0 k)
      = -2 * ((∑ m in Finset.range INPUT_SIZE, x m * x m)
            * ∑ j in Finset.range HIDDEN_SIZE,
                hErr (oErr tgt out) Wo hid j * (hid j * (1 - hid j))
                  * (oErr tgt out k * Wo (k * HIDDEN_SIZE + j))
          + ∑ j in Finset.range HIDDEN_SIZE, (oErr tgt out k * hid j) ^ 2) := by
    intro k hk
    rw [ho k (Finset.mem_range.mp hk), hdZ k, Finset.sum_add_distrib, Finset.mul_sum]
    have e1 : 2 * (tgt k - out k) * -(out k * (1 - out k)
          * (∑ j in Finset.range HIDDEN_SIZE,
              hid j * (1 - hid j) * (hErr (oErr tgt out) Wo hid j
                * ∑ m in Finset.range INPUT_SIZE, x m * x m) * Wo (k * HIDDEN_SIZE + j)
            + ∑ j in Finset.range HIDDEN_SIZE, hid j * (oErr tgt out k * hid j)))
        = -2 * (∑ j in Finset.range HIDDEN_SIZE,
              oErr tgt out k * (hid j * (1 - hid j) * (hErr (oErr tgt out) Wo hid j
                * ∑ m in Finset.range INPUT_SIZE, x m * x m) * Wo (k * HIDDEN_SIZE + j))
            + ∑ j in Finset.range HIDDEN_SIZE,
              oErr tgt out k * (hid j * (oErr tgt out k * hid j))) := by
      rw [← Finset.mul_sum, ← Finset.mul_sum]
      unfold oErr
      ring
    have e2 : (∑ j in Finset.range HIDDEN_SIZE,
          oErr tgt out k * (hid j * (1 - hid j) * (hErr (oErr tgt out) Wo hid j
            * ∑ m in Finset.range INPUT_SIZE, x m * x m) * Wo (k * HIDDEN_SIZE + j)))
        = ∑ j in Finset.range HIDDEN_SIZE, (∑ m in Finset.range INPUT_SIZE, x m * x m)
            * (hErr (oErr tgt out) Wo hid j * (hid j * (1 - hid j))
              * (oErr tgt out k * Wo (k * HIDDEN_SIZE + j))) := by
      apply Finset.sum_congr rfl
      intro j _
      ring
    have e3 : (∑ j in Finset.range HIDDEN_SIZE,
          oErr tgt out k * (hid j * (oErr tgt out k * hid j)))
        = ∑ j in Finset.range HIDDEN_SIZE, (oErr tgt out k * hid j) ^ 2 := by
      apply Finset.sum_congr rfl
      intro j _
      ring
    rw [e1, e2, e3]
  unfold dLossCurve
  rw [Finset.sum_congr rfl hterm, ← Finset.mul_sum, Finset.sum_add_distrib, ← Finset.mul_sum]
  have hswap : (∑ k in Finset.range OUTPUT_SIZE, ∑ j in Finset.range HIDDEN_SIZE,
        hErr (oErr tgt out) Wo hid j * (hid j * (1 - hid j))
          * (oErr tgt out k * Wo (k * HIDDEN_SIZE + j)))
      = ∑ j in Finset.range HIDDEN_SIZE, hErr (oErr tgt out) Wo hid j ^ 2 := by
    rw [Finset.sum_comm]
    apply Finset.sum_congr rfl
    intro j _
    rw [← Finset.mul_sum]
    have hdef : hErr (oErr tgt out) Wo hid j
        = (∑ k in Finset.range OUTPUT_SIZE, oErr tgt out k * Wo (k * HIDDEN_SIZE + j))
          * (hid j * (1 - hid j)) := rfl
    rw [hdef]
    ring
  rw [hswap]

end DescentAlgebra

section DescentTheorem

/-- The output error of a unit whose activation lies strictly between 0 and 1 is not
zero, whatever the one-hot target. -/
theorem oErr_oneHot_ne_zero (l : Nat) (out : Nat → ℝ) (k : Nat)
    (h : 0 < out k ∧ out k < 1) : oErr (oneHot l) out k ≠ 0 := by
  unfold oErr oneHot
  have h1 : out k * (1 - out k) ≠ 0 := by
    apply mul_ne_zero (ne_of_gt h.1)
    linarith [h.2]
  apply mul_ne_zero _ h1
  by_cases hk : k = l
  · simp only [hk, if_true]
    subst hk
    linarith [h.2]
  · simp only [hk, if_false]
    linarith [h.1]

/-- The derivative of the loss curve at rate `0` is negative. -/
theorem dLossCurve_zero_neg (x : Nat → ℝ) (label : Int) (Wh Wo h0 o0 : Nat → ℝ)
    (hl : 0 ≤ label) :
    dLossCurve Real.exp x Wh Wo
        (hErr (oErr (oneHot label.toNat) (forward Real.exp x Wh Wo h0 o0).2) Wo
          (forward Real.exp x Wh Wo h0 o0).1)
        (oErr (oneHot label.toNat) (forward Real.exp x Wh Wo h0 o0).2)
        (forward Real.exp x Wh Wo h0 o0).1 (oneHot label.toNat) 0 < 0 := by
  have hO : 0 < OUTPUT_SIZE := by decide
  have hH : 0 < HIDDEN_SIZE := by decide
  have hh : ∀ j, j < HIDDEN_SIZE →
      sigmoid Real.exp (hiddenPre x Wh
        (hErr (oErr (oneHot label.toNat) (forward Real.exp x Wh Wo h0 o0).2) Wo
          (forward Real.exp x Wh Wo h0 o0).1) 0 j) = (forward Real.exp x Wh Wo h0 o0).1 j := by
    intro j hj
    have h := updated_hidden_act Real.exp 0 x label Wh Wo (forward Real.exp x Wh Wo h0 o0).1
      (forward Real.exp x Wh Wo h0 o0).2 (fun _ => 0) (fun _ => 0) h0 o0 j hj
    rw [backprop_zero, codeTarget_eq_oneHot label hl] at h
    exact h.symm
  have ho : ∀ k, k < OUTPUT_SIZE →
      sigmoid Real.exp (outputPre Real.exp x Wh Wo
        (hErr (oErr (oneHot label.toNat) (forward Real.exp x Wh Wo h0 o0).2) Wo
          (forward Real.exp x Wh Wo h0 o0).1)
        (oErr (oneHot label.toNat) (forward Real.exp x Wh Wo h0 o0).2)
        (forward Real.exp x Wh Wo h0 o0).1 0 k) = (forward Real.exp x Wh Wo h0 o0).2 k := by
    intro k hk
    have h := updated_output_act Real.exp 0 x label Wh Wo (forward Real.exp x Wh Wo h0 o0).1
      (forward Real.exp x Wh Wo h0 o0).2 (fun _ => 0) (fun _ => 0) h0 o0 k hk
    rw [backprop_zero, codeTarget_eq_oneHot label hl] at h
    exact h.symm
  rw [dLossCurve_zero Real.exp x Wh Wo _ _ _ hh ho]
  have hhid : 0 < (forward Real.exp x Wh Wo h0 o0).1 0 := by
    rw [forward_fst]
    simp only [hH, if_true]
    exact (sigmoid_mem_Ioo Real.exp Real.exp_pos _).1
  have hout : 0 < (forward Real.exp x Wh Wo h0 o0).2 0 ∧ (forward Real.exp x Wh Wo h0 o0).2 0 < 1 := by
    rw [forward_snd]
    simp only [hO, if_true]
    exact sigmoid_mem_Ioo Real.exp Real.exp_pos _
  have hoe := oErr_oneHot_ne_zero label.toNat (forward Real.exp x Wh Wo h0 o0).2 0 hout
  have hT1 : 0 ≤ (∑ m in Finset.range INPUT_SIZE, x m * x m)
      * ∑ j in Finset.range HIDDEN_SIZE,
          hErr (oErr (oneHot label.toNat) (forward Real.exp x Wh Wo h0 o0).2) Wo
            (forward Real.exp x Wh Wo h0 o0).1 j ^ 2 :=
    mul_nonneg (Finset.sum_nonneg (fun m _ => mul_self_nonneg (x m)))
      (Finset.sum_nonneg (fun j _ => sq_nonneg _))
  have hT2 : 0 < ∑ k in Finset.range OUTPUT_SIZE, ∑ j in Finset.range HIDDEN_SIZE,
      (oErr (oneHot label.toNat) (forward Real.exp x Wh Wo h0 o0).2 k
        * (forward Real.exp x Wh Wo h0 o0).1 j) ^ 2 := by
    apply Finset.sum_pos'
    · intro k _
      exact Finset.sum_nonneg (fun j _ => sq_nonneg _)
    · refine ⟨0, Finset.mem_range.mpr hO, ?_⟩
      apply Finset.sum_pos'
      · intro j _
        exact sq_nonneg _
      · refine ⟨0, Finset.mem_range.mpr hH, ?_⟩
        exact lt_of_le_of_ne (sq_nonneg _)
          (Ne.symm (pow_ne_zero 2 (mul_ne_zero hoe (ne_of_gt hhid))))
  linarith

/-- C4: for a label in `[0, OUTPUT_SIZE)`, over the reals, there is a threshold `η0 > 0`
such that for every learning rate `0 < η < η0` the squared-error loss computed by
`forward` on the weights after one `forward` + `backprop` (with rate `η`) is strictly
less than the loss computed by `forward` on the weights before the update. -/
theorem backprop_decreases_loss (x : Nat → ℝ) (label : Int) (Wh Wo h0 o0 : Nat → ℝ)
    (hlabel : 0 ≤ label ∧ label < (OUTPUT_SIZE : Int)) :
    ∃ η0 : ℝ, 0 < η0 ∧ ∀ η : ℝ, 0 < η → η < η0 → ∀ oe he h1 o1 : Nat → ℝ,
      lossOn Real.exp x label
        (updatedWeights Real.exp η x label Wh Wo h0 o0 oe he).1
        (updatedWeights Real.exp η x label Wh Wo h0 o0 oe he).2 h1 o1
      < lossOn Real.exp x label Wh Wo h0 o0 := by
  obtain ⟨η0, hpos, hlt⟩ := lt_of_hasDerivAt_neg _ _
    (hasDerivAt_lossCurve x Wh Wo
      (hErr (oErr (oneHot label.toNat) (forward Real.exp x Wh Wo h0 o0).2) Wo
        (forward Real.exp x Wh Wo h0 o0).1)
      (oErr (oneHot label.toNat) (forward Real.exp x Wh Wo h0 o0).2)
      (forward Real.exp x Wh Wo h0 o0).1 (oneHot label.toNat) 0)
    (dLossCurve_zero_neg x label Wh Wo h0 o0 hlabel.1)
  refine ⟨η0, hpos, ?_⟩
  intro η h1η h2η oe he h1 o1
  have h := hlt η h1η h2η
  simp only [] at h
  rw [lossCurve_zero Real.exp x label Wh Wo h0 o0 hlabel.1] at h
  rw [lossOn_updated Real.exp η x label Wh Wo h0 o0 oe he h1 o1 hlabel.1]
  exact h

/-- Witness of C4: label `3`, the all-zero input and all-zero weights. -/
theorem backprop_decreases_loss_witness :
    (0 ≤ (3 : Int) ∧ (3 : Int) < (OUTPUT_SIZE : Int)) ∧
    ∃ η0 : ℝ, 0 < η0 ∧ ∀ η : ℝ, 0 < η → η < η0 → ∀ oe he h1 o1 : Nat → ℝ,
      lossOn Real.exp (fun _ => 0) 3
        (updatedWeights Real.exp η (fun _ => 0) 3 (fun _ => 0) (fun _ => 0)
          (fun _ => 0) (fun _ => 0) oe he).1
        (updatedWeights Real.exp η (fun _ => 0) 3 (fun _ => 0) (fun _ => 0)
          (fun _ => 0) (fun _ => 0) oe he).2 h1 o1
      < lossOn Real.exp (fun _ => 0) 3 (fun _ => 0) (fun _ => 0) (fun _ => 0) (fun _ => 0) :=
  ⟨⟨by decide, by decide⟩,
    backprop_decreases_loss (fun _ => 0) 3 (fun _ => 0) (fun _ => 0) (fun _ => 0) (fun _ => 0)
      ⟨by decide, by decide⟩⟩

end DescentTheorem

/-! ## The evaluation loop -/

section Evaluation

variable {K : Type} [LinearOrderedField K]

/-- The arg-max scan reads the output buffer only below `OUTPUT_SIZE`. -/
theorem predict_congr (o o2 : Nat → K) (h : ∀ k, k < OUTPUT_SIZE → o2 k = o k) :
    predict o2 = predict o := by
  have hp : ∀ v : Nat → K, predict v = forLoop (OUTPUT_SIZE - 1) (fun t (st : Nat × K) =>
      if v (1 + t) > st.2 then (1 + t, v (1 + t)) else st) (0, v 0) := fun _ => rfl
  have hO : 0 < OUTPUT_SIZE := by decide
  rw [hp o2, hp o, h 0 hO]
  apply forLoop_congr
  intro t ht st
  have ht2 : 1 + t < OUTPUT_SIZE := by omega
  simp only [h (1 + t) ht2]

/-- The counter of `test_net` after the first `n` samples. -/
theorem test_loop_count (exp : K → K) (test_images : Nat → Nat → K) (test_labels : Nat → Int)
    (Wh Wo : Nat → K) (n : Nat) (s : (Nat → K) × (Nat → K) × Nat) :
    (forLoop n (fun i (st : (Nat → K) × (Nat → K) × Nat) =>
        ((forward exp (test_images i) Wh Wo st.1 st.2.1).1,
          (forward exp (test_images i) Wh Wo st.1 st.2.1).2,
          if (((predict (forward exp (test_images i) Wh Wo st.1 st.2.1).2).1 : Nat) : Int)
              = test_labels i then st.2.2 + 1 else st.2.2)) s).2.2
      = s.2.2 + ((Finset.range n).filter (fun i =>
          (((predict (forward exp (test_images i) Wh Wo (fun _ => 0) (fun _ => 0)).2).1 : Nat)
            : Int) = test_labels i)).card := by
  induction n with
  | zero => simp [forLoop_zero]
  | succ m ih =>
    rw [forLoop_succ]
    generalize forLoop m (fun i (st : (Nat → K) × (Nat → K) × Nat) =>
        ((forward exp (test_images i) Wh Wo st.1 st.2.1).1,
          (forward exp (test_images i) Wh Wo st.1 st.2.1).2,
          if (((predict (forward exp (test_images i) Wh Wo st.1 st.2.1).2).1 : Nat) : Int)
              = test_labels i then st.2.2 + 1 else st.2.2)) s = st at ih
    have hpred : predict (forward exp (test_images m) Wh Wo st.1 st.2.1).2
        = predict (forward exp (test_images m) Wh Wo (fun _ => 0) (fun _ => 0)).2 :=
      predict_congr _ _
        (forward_buffers_irrelevant exp (test_images m) Wh Wo (fun _ => 0) (fun _ => 0)
          st.1 st.2.1).2
    simp only [hpred, ih]
    rw [Finset.range_succ, Finset.filter_insert]
    by_cases hc : (((predict (forward exp (test_images m) Wh Wo (fun _ => 0)
        (fun _ => 0)).2).1 : Nat) : Int) = test_labels m
    · simp only [hc, if_true]
      rw [Finset.card_insert_of_not_mem (by simp)]
      omega
    · simp only [hc, if_false]

/-- The accuracy `test_net` reports, in terms of the number of correct predictions. -/
theorem test_net_eq (exp : K → K) (test_images : Nat → Nat → K) (test_labels : Nat → Int)
    (Wh Wo h0 o0 : Nat → K) :
    test_net exp test_images test_labels Wh Wo h0 o0
      = (correctCount exp test_images test_labels Wh Wo : K) / (TEST_SIZE : K) * 100 := by
  have h := test_loop_count exp test_images test_labels Wh Wo TEST_SIZE (h0, o0, 0)
  simp only [zero_add] at h
  unfold test_net correctCount
  simp only []
  rw [h]

/-- The accuracy `test_net` reports in terms of the scan `predict`, with its bounds. -/
theorem test_net_predict_count (exp : K → K) (test_images : Nat → Nat → K)
    (test_labels : Nat → Int) (Wh Wo h0 o0 : Nat → K) :
    test_net exp test_images test_labels Wh Wo h0 o0
      = (((Finset.range TEST_SIZE).filter (fun i =>
          (((predict (forward exp (test_images i) Wh Wo (fun _ => 0) (fun _ => 0)).2).1 : Nat)
            : Int) = test_labels i)).card : K) / (TEST_SIZE : K) * 100 ∧
    0 ≤ test_net exp test_images test_labels Wh Wo h0 o0 ∧
    test_net exp test_images test_labels Wh Wo h0 o0 ≤ 100 ∧
    (test_net exp test_images test_labels Wh Wo h0 o0 = 100 ↔
      ∀ i, i < TEST_SIZE →
        (((predict (forward exp (test_images i) Wh Wo (fun _ => 0) (fun _ => 0)).2).1 : Nat)
          : Int) = test_labels i) := by
  have heq := test_net_eq exp test_images test_labels Wh Wo h0 o0
  have hT : (0 : K) < (TEST_SIZE : K) := by
    have : 0 < TEST_SIZE := by decide
    exact_mod_cast this
  have hle : correctCount exp test_images test_labels Wh Wo ≤ TEST_SIZE := by
    unfold correctCount
    have h := Finset.card_filter_le (Finset.range TEST_SIZE) (fun i =>
      (((predict (forward exp (test_images i) Wh Wo (fun _ => 0) (fun _ => 0)).2).1 : Nat)
        : Int) = test_labels i)
    rw [Finset.card_range] at h
    exact h
  have hleK : (correctCount exp test_images test_labels Wh Wo : K) ≤ (TEST_SIZE : K) := by
    exact_mod_cast hle
  have hnn : (0 : K) ≤ (correctCount exp test_images test_labels Wh Wo : K) := Nat.cast_nonneg _
  refine ⟨heq, ?_, ?_, ?_⟩
  · rw [heq]
    exact mul_nonneg (div_nonneg hnn (le_of_lt hT)) (by norm_num)
  · rw [heq]
    have h1 : (correctCount exp test_images test_labels Wh Wo : K) / (TEST_SIZE : K) ≤ 1 :=
      (div_le_one hT).mpr hleK
    linarith
  · rw [heq]
    constructor
    · intro h100
      have h1 : (correctCount exp test_images test_labels Wh Wo : K) / (TEST_SIZE : K) = 1 := by
        linarith
      rw [div_eq_one_iff_eq (ne_of_gt hT)] at h1
      have h2 : correctCount exp test_images test_labels Wh Wo = TEST_SIZE := by
        exact_mod_cast h1
      unfold correctCount at h2
      have h3 : ((Finset.range TEST_SIZE).filter (fun i =>
          (((predict (forward exp (test_images i) Wh Wo (fun _ => 0) (fun _ => 0)).2).1 : Nat)
            : Int) = test_labels i)).card = (Finset.range TEST_SIZE).card := by
        rw [Finset.card_range]; exact h2
      rw [Finset.card_filter_eq_iff] at h3
      intro i hi
      exact h3 i (Finset.mem_range.mpr hi)
    · intro hall
      have h2 : correctCount exp test_images test_labels Wh Wo = TEST_SIZE := by
        unfold correctCount
        rw [Finset.filter_true_of_mem (fun i hi => hall i (Finset.mem_range.mp hi)),
          Finset.card_range]
      rw [h2, div_self (ne_of_gt hT), one_mul]

/-- An output vector has only one first maximum. -/
theorem isFirstMax_unique (o : Nat → K) (p q : Nat) (hp : IsFirstMax o p)
    (hq : IsFirstMax o q) : p = q := by
  rcases Nat.lt_trichotomy p q with h | h | h
  · exact absurd (hq.2.2 p h) (not_lt.mpr (hp.2.1 q hq.1))
  · exact h
  · exact absurd (hp.2.2 q h) (not_lt.mpr (hq.2.1 p hp.1))

/-- C11: for each held-out sample the predicted label is the arg-max (lowest index among
the maxima) of `forward(test_images[i], Wh, Wo)`; the accuracy `test_net` reports is
(number of samples whose arg-max prediction equals `test_labels[i]`) / `TEST_SIZE` × 100,
all samples being evaluated on the same weights; it lies in `[0, 100]` and is `100`
exactly when every sample is predicted correctly. -/
theorem test_net_accuracy (exp : K → K) (test_images : Nat → Nat → K)
    (test_labels : Nat → Int) (Wh Wo h0 o0 : Nat → K) :
    (∃ pred : Nat → Nat, ∀ i,
      IsFirstMax (forward exp (test_images i) Wh Wo (fun _ => 0) (fun _ => 0)).2 (pred i)) ∧
    (∀ pred : Nat → Nat,
      (∀ i, i < TEST_SIZE →
        IsFirstMax (forward exp (test_images i) Wh Wo (fun _ => 0) (fun _ => 0)).2 (pred i)) →
      test_net exp test_images test_labels Wh Wo h0 o0
        = (((Finset.range TEST_SIZE).filter (fun i =>
            ((pred i : Nat) : Int) = test_labels i)).card : K) / (TEST_SIZE : K) * 100 ∧
      0 ≤ test_net exp test_images test_labels Wh Wo h0 o0 ∧
      test_net exp test_images test_labels Wh Wo h0 o0 ≤ 100 ∧
      (test_net exp test_images test_labels Wh Wo h0 o0 = 100 ↔
        ∀ i, i < TEST_SIZE → ((pred i : Nat) : Int) = test_labels i)) := by
  have hscan : ∀ o : Nat → K, IsFirstMax o (predict o).1 := by
    intro o
    obtain ⟨_, h2, h3, h4⟩ := argmax_scan o (OUTPUT_SIZE - 1)
    have hp : predict o = forLoop (OUTPUT_SIZE - 1) (fun t (st : Nat × K) =>
        if o (1 + t) > st.2 then (1 + t, o (1 + t)) else st) (0, o 0) := rfl
    rw [← hp] at h2 h3 h4
    have hO : OUTPUT_SIZE - 1 < OUTPUT_SIZE := by decide
    exact ⟨lt_of_le_of_lt h2 hO, fun j hj => h3 j (by omega), h4⟩
  refine ⟨⟨fun i => (predict (forward exp (test_images i) Wh Wo (fun _ => 0)
    (fun _ => 0)).2).1, fun i => hscan _⟩, ?_⟩
  intro pred hpred
  have heq : ∀ i, i < TEST_SIZE →
      (predict (forward exp (test_images i) Wh Wo (fun _ => 0) (fun _ => 0)).2).1 = pred i :=
    fun i hi => isFirstMax_unique _ _ _ (hscan _) (hpred i hi)
  obtain ⟨h1, h2, h3, h4⟩ := test_net_predict_count exp test_images test_labels Wh Wo h0 o0
  have hfilter : (Finset.range TEST_SIZE).filter (fun i =>
        (((predict (forward exp (test_images i) Wh Wo (fun _ => 0) (fun _ => 0)).2).1 : Nat)
          : Int) = test_labels i)
      = (Finset.range TEST_SIZE).filter (fun i => ((pred i : Nat) : Int) = test_labels i) := by
    apply Finset.filter_congr
    intro i hi
    rw [heq i (Finset.mem_range.mp hi)]
  rw [hfilter] at h1
  refine ⟨h1, h2, h3, ?_⟩
  rw [h4]
  constructor
  · intro h i hi
    rw [← heq i hi]
    exact h i hi
  · intro h i hi
    rw [heq i hi]
    exact h i hi

end Evaluation

/-! ## Activation functions and sign of the updates -/

section ActivationFacts

variable {K : Type} [LinearOrderedField K]

/-- C12, amended: for every `y` in `[0, 1]`, `d_sigmoid y = y·(1 − y)` is at most `0.25`,
`d_sigmoid 0.5 = 0.25` and `d_sigmoid 0 = d_sigmoid 1 = 0`; in exact arithmetic equality
with `0.25` holds only at `y = 0.5`. (In binary64 arithmetic the product also rounds to
`0.25` at doubles near `0.5`.) -/
theorem d_sigmoid_bounds :
    (∀ y : K, 0 ≤ y → y ≤ 1 → d_sigmoid y ≤ 1 / 4 ∧ (d_sigmoid y = 1 / 4 ↔ y = 1 / 2)) ∧
    d_sigmoid (1 / 2 : K) = 1 / 4 ∧ d_sigmoid (0 : K) = 0 ∧ d_sigmoid (1 : K) = 0 := by
  have hsq : ∀ y : K, d_sigmoid y = 1 / 4 - (y - 1 / 2) ^ 2 := by
    intro y
    unfold d_sigmoid
    ring
  refine ⟨?_, ?_, ?_, ?_⟩
  · intro y _ _
    constructor
    · rw [hsq y]
      linarith [sq_nonneg (y - 1 / 2)]
    · constructor
      · intro h
        rw [hsq y] at h
        have h0 : (y - 1 / 2) ^ 2 = 0 := by linarith
        have h1 : y - 1 / 2 = 0 := pow_eq_zero_iff (two_ne_zero) |>.mp h0
        linarith
      · intro h
        rw [h, hsq]
        norm_num
  · rw [hsq]; norm_num
  · unfold d_sigmoid; ring
  · unfold d_sigmoid; ring

/-- C13: for every real `x` the derivative of `sigmoid` at `x` is `d_sigmoid` applied to
the activated value `sigmoid x`, that is `sigmoid x · (1 − sigmoid x)`. -/
theorem sigmoid_deriv_eq_d_sigmoid (x : ℝ) :
    HasDerivAt (sigmoid Real.exp) (d_sigmoid (sigmoid Real.exp x)) x ∧
    deriv (sigmoid Real.exp) x = d_sigmoid (sigmoid Real.exp x) ∧
    d_sigmoid (sigmoid Real.exp x) = sigmoid Real.exp x * (1 - sigmoid Real.exp x) := by
  have h : HasDerivAt (sigmoid Real.exp) (d_sigmoid (sigmoid Real.exp x)) x :=
    hasDerivAt_sigmoid x
  exact ⟨h, h.deriv, rfl⟩

/-- C17: for the all-zero input vector, over the reals, `forward` yields `hidden[i] = 0.5`
for every hidden unit whatever `Wh` is, and `output[k] = sigmoid(Σ_i 0.5·Wo[k,i])` for
every output unit, the same for every `Wh`. -/
theorem forward_zero_input (Wh Wo h0 o0 : Nat → ℝ) :
    (∀ i, i < HIDDEN_SIZE → (forward Real.exp (fun _ => 0) Wh Wo h0 o0).1 i = 1 / 2) ∧
    (∀ k, k < OUTPUT_SIZE → (forward Real.exp (fun _ => 0) Wh Wo h0 o0).2 k
      = sigmoid Real.exp (∑ i in Finset.range HIDDEN_SIZE, 1 / 2 * Wo (k * HIDDEN_SIZE + i))) ∧
    (∀ Wh2 h1 o1 : Nat → ℝ, ∀ k, k < OUTPUT_SIZE →
      (forward Real.exp (fun _ => 0) Wh2 Wo h1 o1).2 k
        = (forward Real.exp (fun _ => 0) Wh Wo h0 o0).2 k) := by
  have hid : ∀ (W a b : Nat → ℝ) i, i < HIDDEN_SIZE →
      (forward Real.exp (fun _ => 0) W Wo a b).1 i = 1 / 2 := by
    intro W a b i hi
    rw [forward_fst]
    simp only [hi, if_true, zero_mul, Finset.sum_const_zero]
    unfold sigmoid
    rw [neg_zero, Real.exp_zero]
    norm_num
  have out : ∀ (W a b : Nat → ℝ) k, k < OUTPUT_SIZE →
      (forward Real.exp (fun _ => 0) W Wo a b).2 k
        = sigmoid Real.exp (∑ i in Finset.range HIDDEN_SIZE, 1 / 2 * Wo (k * HIDDEN_SIZE + i)) := by
    intro W a b k hk
    have hs : (∑ j in Finset.range HIDDEN_SIZE,
          (forward Real.exp (fun _ => 0) W Wo a b).1 j * Wo (k * HIDDEN_SIZE + j))
        = ∑ i in Finset.range HIDDEN_SIZE, 1 / 2 * Wo (k * HIDDEN_SIZE + i) := by
      apply Finset.sum_congr rfl
      intro j hj
      rw [hid W a b j (Finset.mem_range.mp hj)]
    rw [forward_snd]
    simp only [hk, if_true, hs]
  refine ⟨hid Wh h0 o0, out Wh h0 o0, ?_⟩
  intro Wh2 h1 o1 k hk
  rw [out Wh2 h1 o1 k hk, out Wh h0 o0 k hk]

/-- C19, amended: in exact arithmetic, when `backprop` is called with a positive learning
rate, a label in `[0, OUTPUT_SIZE)` and activations that lie strictly between 0 and 1,
every output weight in the label's row strictly increases and every output weight in
every other row strictly decreases. (In binary64 arithmetic the `+=` can absorb the
increment.) -/
theorem backprop_output_weight_signs (lr : K) (x : Nat → K) (label : Int)
    (Wh Wo hidden output oe0 he0 : Nat → K)
    (hlr : 0 < lr) (hlabel : 0 ≤ label ∧ label < (OUTPUT_SIZE : Int))
    (hhid : ∀ i, i < HIDDEN_SIZE → 0 < hidden i ∧ hidden i < 1)
    (hout : ∀ k, k < OUTPUT_SIZE → 0 < output k ∧ output k < 1) :
    (∀ i, i < HIDDEN_SIZE →
      Wo (label.toNat * HIDDEN_SIZE + i)
        < (backprop lr x label Wh Wo hidden output oe0 he0).2 (label.toNat * HIDDEN_SIZE + i)) ∧
    (∀ k i, k < OUTPUT_SIZE → (k : Int) ≠ label → i < HIDDEN_SIZE →
      (backprop lr x label Wh Wo hidden output oe0 he0).2 (k * HIDDEN_SIZE + i)
        < Wo (k * HIDDEN_SIZE + i)) := by
  constructor
  · intro i hi
    have hk : label.toNat < OUTPUT_SIZE := by omega
    have hkl : ((label.toNat : Nat) : Int) = label := by omega
    rw [backprop_o_weight lr x label Wh Wo hidden output oe0 he0 label.toNat i hk hi]
    have ho := hout label.toNat hk
    have hh := hhid i hi
    have hpos : 0 < lr * oErr (codeTarget label) output label.toNat * hidden i := by
      apply mul_pos (mul_pos hlr _) hh.1
      unfold oErr codeTarget
      simp only [hkl, if_true]
      apply mul_pos
      · linarith [ho.2]
      · apply mul_pos ho.1
        linarith [ho.2]
    linarith
  · intro k i hk hne hi
    rw [backprop_o_weight lr x label Wh Wo hidden output oe0 he0 k i hk hi]
    have ho := hout k hk
    have hh := hhid i hi
    have hneg : lr * oErr (codeTarget label) output k * hidden i < 0 := by
      apply mul_neg_of_neg_of_pos _ hh.1
      apply mul_neg_of_pos_of_neg hlr
      unfold oErr codeTarget
      simp only [hne, if_false]
      apply mul_neg_of_neg_of_pos
      · linarith [ho.1]
      · apply mul_pos ho.1
        linarith [ho.2]
    linarith

/-- Witness of C19: label `3`, rate `3/10`, all activations `1/2`, zero weights. -/
theorem backprop_output_weight_signs_witness :
    (0 < (3 / 10 : ℚ)) ∧ (0 ≤ (3 : Int) ∧ (3 : Int) < (OUTPUT_SIZE : Int)) ∧
    (∀ i, i < HIDDEN_SIZE → 0 < (1 / 2 : ℚ) ∧ (1 / 2 : ℚ) < 1) ∧
    (∀ k, k < OUTPUT_SIZE → 0 < (1 / 2 : ℚ) ∧ (1 / 2 : ℚ) < 1) ∧
    ((∀ i, i < HIDDEN_SIZE →
      (0 : ℚ) < (backprop (3 / 10 : ℚ) (fun _ => 0) 3 (fun _ => 0) (fun _ => 0)
          (fun _ => 1 / 2) (fun _ => 1 / 2) (fun _ => 0) (fun _ => 0)).2
            ((3 : Int).toNat * HIDDEN_SIZE + i)) ∧
    (∀ k i, k < OUTPUT_SIZE → (k : Int) ≠ 3 → i < HIDDEN_SIZE →
      (backprop (3 / 10 : ℚ) (fun _ => 0) 3 (fun _ => 0) (fun _ => 0)
          (fun _ => 1 / 2) (fun _ => 1 / 2) (fun _ => 0) (fun _ => 0)).2
            (k * HIDDEN_SIZE + i) < (0 : ℚ))) :=
  ⟨by norm_num, ⟨by decide, by decide⟩, fun _ _ => by norm_num, fun _ _ => by norm_num,
    backprop_output_weight_signs (3 / 10 : ℚ) (fun _ => 0) 3 (fun _ => 0) (fun _ => 0)
      (fun _ => 1 / 2) (fun _ => 1 / 2) (fun _ => 0) (fun _ => 0) (by norm_num)
      ⟨by decide, by decide⟩ (fun _ _ => by norm_num) (fun _ _ => by norm_num)⟩

/-- C20: `backprop` leaves unchanged every hidden weight `Wh[i,j]` whose input component
`x[j]` is `0`; for the all-zero input vector the whole hidden weight array is returned
unchanged, so that only the output weights can differ. -/
theorem backprop_zero_input_frame (lr : K) (x : Nat → K) (label : Int)
    (Wh Wo hidden output oe0 he0 : Nat → K) :
    (∀ i j, i < HIDDEN_SIZE → j < INPUT_SIZE → x j = 0 →
      (backprop lr x label Wh Wo hidden output oe0 he0).1 (i * INPUT_SIZE + j)
        = Wh (i * INPUT_SIZE + j)) ∧
    ((∀ j, j < INPUT_SIZE → x j = 0) →
      (backprop lr x label Wh Wo hidden output oe0 he0).1 = Wh) ∧
    (backprop lr (fun _ => 0) label Wh Wo hidden output oe0 he0).1 = Wh := by
  have hI : 0 < INPUT_SIZE := by decide
  have hall : ∀ y : Nat → K, (∀ j, j < INPUT_SIZE → y j = 0) →
      (backprop lr y label Wh Wo hidden output oe0 he0).1 = Wh := by
    intro y hy
    rw [backprop_fst]
    funext t
    by_cases ht : t < HIDDEN_SIZE * INPUT_SIZE
    · simp only [ht, if_true, hy (t % INPUT_SIZE) (Nat.mod_lt t hI), mul_zero, add_zero]
    · simp only [ht, if_false]
  refine ⟨?_, hall x, hall (fun _ => 0) (fun _ _ => rfl)⟩
  intro i j hi hj hx
  rw [backprop_h_weight lr x label Wh Wo hidden output oe0 he0 i j hi hj, hx, mul_zero,
    add_zero]

end ActivationFacts

/-! ## Initialisation and normalisation -/

section InitNormalize

variable {K : Type} [LinearOrderedField K]

/-- One row of a two-dimensional array rewritten cell by cell:
`img[i][j] = g j img[i][j]` for `j < m`. -/
theorem forLoop_row_map {α : Type} (m i : Nat) (g : Nat → α → α) (img : Nat → Nat → α) :
    forLoop m (fun j (img : Nat → Nat → α) =>
        Function.update img i (Function.update (img i) j (g j (img i j)))) img
      = Function.update img i (fun b => if b < m then g b (img i b) else img i b) := by
  induction m with
  | zero =>
    rw [forLoop_zero]
    funext a
    by_cases ha : a = i
    · subst ha; simp
    · rw [Function.update_noteq ha]
  | succ k ih =>
    rw [forLoop_succ, ih]
    simp only [Function.update_same, Function.update_idem, lt_irrefl, if_false]
    apply congrArg
    funext b
    by_cases hb : b = k
    · subst hb; simp
    · rw [Function.update_noteq hb]
      by_cases hlt : b < k
      · simp [hlt, Nat.lt_succ_of_lt hlt]
      · have : ¬ b < k + 1 := by omega
        simp [hlt, this]

/-- A two-dimensional array rewritten cell by cell: `img[i][j] = g i j img[i][j]` for
`i < n`, `j < m`. -/
theorem forLoop_grid_map {α : Type} (n m : Nat) (g : Nat → Nat → α → α)
    (img : Nat → Nat → α) :
    forLoop n (fun i (img : Nat → Nat → α) =>
        forLoop m (fun j (img : Nat → Nat → α) =>
          Function.update img i (Function.update (img i) j (g i j (img i j)))) img) img
      = fun a b => if a < n ∧ b < m then g a b (img a b) else img a b := by
  induction n with
  | zero => funext a b; simp [forLoop_zero]
  | succ k ih =>
    rw [forLoop_succ, ih, forLoop_row_map m k (g k)]
    funext a b
    by_cases ha : a = k
    · subst ha
      simp
    · rw [Function.update_noteq ha]
      by_cases hlt : a < k
      · simp [hlt, Nat.lt_succ_of_lt hlt]
      · have : ¬ a < k + 1 := by omega
        simp [hlt, this]

/-- Contents of the weight array after `init_weights`. -/
theorem init_weights_eq (RAND_MAX : Int) (rand : Nat → Int) (weights : Nat → K) (size : Int) :
    init_weights RAND_MAX rand weights size = fun t =>
      if t < size.toNat then ((rand t : K) / (RAND_MAX : K)) * 2 - 1 else weights t := by
  unfold init_weights
  exact forLoop_cells size.toNat (fun t => ((rand t : K) / (RAND_MAX : K)) * 2 - 1) weights

/-- Contents of the image array after `normalize_data`. -/
theorem normalize_data_eq (images : Nat → Nat → K) (size : Int) :
    normalize_data images size = fun a b =>
      if a < size.toNat ∧ b < INPUT_SIZE then images a b / 255 else images a b := by
  unfold normalize_data
  exact forLoop_grid_map size.toNat INPUT_SIZE (fun _ _ v => v / 255) images

/-- C14: for `size ≥ 0` and `rand()` results in `[0, RAND_MAX]`, `init_weights` writes
exactly the entries `0..size−1`; entry `i` is `rand_i / RAND_MAX · 2 − 1`, lies in `[−1, 1]`
and is determined by the `i`-th `rand()` result alone; entries at indices `≥ size` are left
unchanged. -/
theorem init_weights_spec (RAND_MAX : Int) (rand : Nat → Int) (weights : Nat → K) (size : Int)
    (hsize : 0 ≤ size) (hmax : 0 < RAND_MAX) (hrand : ∀ i, 0 ≤ rand i ∧ rand i ≤ RAND_MAX) :
    (∀ i : Nat, (i : Int) < size →
      init_weights RAND_MAX rand weights size i = ((rand i : K) / (RAND_MAX : K)) * 2 - 1 ∧
      -1 ≤ init_weights RAND_MAX rand weights size i ∧
      init_weights RAND_MAX rand weights size i ≤ 1) ∧
    (∀ i : Nat, size ≤ (i : Int) → init_weights RAND_MAX rand weights size i = weights i) ∧
    (∀ (rand2 : Nat → Int) (weights2 : Nat → K) (i : Nat), (i : Int) < size →
      rand2 i = rand i →
      init_weights RAND_MAX rand2 weights2 size i = init_weights RAND_MAX rand weights size i) := by
  have hM : (0 : K) < (RAND_MAX : K) := by exact_mod_cast hmax
  have hval : ∀ (r : Nat → Int) (w : Nat → K) (i : Nat), (i : Int) < size →
      init_weights RAND_MAX r w size i = ((r i : K) / (RAND_MAX : K)) * 2 - 1 := by
    intro r w i hi
    have hlt : i < size.toNat := by omega
    rw [init_weights_eq]
    simp only [hlt, if_true]
  refine ⟨?_, ?_, ?_⟩
  · intro i hi
    have h0 : (0 : K) ≤ (rand i : K) := by exact_mod_cast (hrand i).1
    have h1 : (rand i : K) ≤ (RAND_MAX : K) := by exact_mod_cast (hrand i).2
    have hq0 : 0 ≤ (rand i : K) / (RAND_MAX : K) := div_nonneg h0 (le_of_lt hM)
    have hq1 : (rand i : K) / (RAND_MAX : K) ≤ 1 := (div_le_one hM).mpr h1
    rw [hval rand weights i hi]
    refine ⟨rfl, ?_, ?_⟩
    · linarith
    · linarith
  · intro i hi
    have hge : ¬ i < size.toNat := by omega
    rw [init_weights_eq]
    simp only [hge, if_false]
  · intro rand2 weights2 i hi heq
    rw [hval rand2 weights2 i hi, hval rand weights i hi, heq]

/-- Witness of C14: `RAND_MAX = 2147483647`, five entries, `rand()` returning `RAND_MAX`
at the first call and `0` afterwards: the first weight is `1`. -/
theorem init_weights_spec_witness :
    (0 ≤ (5 : Int)) ∧ (0 < (2147483647 : Int)) ∧
    (∀ i : Nat, 0 ≤ (if i = 0 then (2147483647 : Int) else 0)
      ∧ (if i = 0 then (2147483647 : Int) else 0) ≤ 2147483647) ∧
    init_weights (2147483647 : Int) (fun i => if i = 0 then 2147483647 else 0)
      (fun _ => (7 : ℚ)) 5 0 = 1 ∧
    init_weights (2147483647 : Int) (fun i => if i = 0 then 2147483647 else 0)
      (fun _ => (7 : ℚ)) 5 5 = 7 := by
  have hr : ∀ i : Nat, 0 ≤ (if i = 0 then (2147483647 : Int) else 0)
      ∧ (if i = 0 then (2147483647 : Int) else 0) ≤ 2147483647 := by
    intro i
    by_cases hi : i = 0
    · simp [hi]
    · simp [hi]
  have h := init_weights_spec (2147483647 : Int) (fun i => if i = 0 then 2147483647 else 0)
    (fun _ => (7 : ℚ)) 5 (by decide) (by decide) hr
  refine ⟨by decide, by decide, hr, ?_, ?_⟩
  · rw [(h.1 0 (by decide)).1]
    norm_num
  · exact h.2.1 5 (by decide)

/-- C15: `normalize_data` replaces each of the `size × INPUT_SIZE` feature values `v` by
`v / 255` and leaves every other cell alone; a raw value in `[0, 255]` is mapped into
`[0, 1]`, `0 ↦ 0`, `255 ↦ 1`, and the order of values is preserved. -/
theorem normalize_data_spec (images : Nat → Nat → K) (size : Int) :
    (∀ i j : Nat, (i : Int) < size → j < INPUT_SIZE →
      normalize_data images size i j = images i j / 255 ∧
      (0 ≤ images i j → images i j ≤ 255 →
        0 ≤ normalize_data images size i j ∧ normalize_data images size i j ≤ 1) ∧
      (images i j = 0 → normalize_data images size i j = 0) ∧
      (images i j = 255 → normalize_data images size i j = 1)) ∧
    (∀ i j i2 j2 : Nat, (i : Int) < size → j < INPUT_SIZE → (i2 : Int) < size →
      j2 < INPUT_SIZE →
      ((images i j ≤ images i2 j2 ↔
          normalize_data images size i j ≤ normalize_data images size i2 j2) ∧
        (images i j < images i2 j2 ↔
          normalize_data images size i j < normalize_data images size i2 j2))) ∧
    (∀ i j : Nat, (size ≤ (i : Int) ∨ INPUT_SIZE ≤ j) →
      normalize_data images size i j = images i j) := by
  have h255 : (0 : K) < 255 := by norm_num
  have hval : ∀ i j : Nat, (i : Int) < size → j < INPUT_SIZE →
      normalize_data images size i j = images i j / 255 := by
    intro i j hi hj
    have hlt : i < size.toNat := by omega
    rw [normalize_data_eq]
    simp only [hlt, hj, and_self, if_true]
  refine ⟨?_, ?_, ?_⟩
  · intro i j hi hj
    rw [hval i j hi hj]
    refine ⟨rfl, ?_, ?_, ?_⟩
    · intro h0 h1
      exact ⟨div_nonneg h0 (le_of_lt h255), (div_le_one h255).mpr h1⟩
    · intro h0
      rw [h0, zero_div]
    · intro h1
      rw [h1, div_self (ne_of_gt h255)]
  · intro i j i2 j2 hi hj hi2 hj2
    rw [hval i j hi hj, hval i2 j2 hi2 hj2]
    exact ⟨(div_le_div_iff_of_pos_right h255).symm, (div_lt_div_iff_of_pos_right h255).symm⟩
  · intro i j hout
    rw [normalize_data_eq]
    have hn : ¬ (i < size.toNat ∧ j < INPUT_SIZE) := by omega
    simp only [hn, if_false]

end InitNormalize

/-! ## Range of the training loss -/

section LossRange

/-- A squared difference between a 0/1 target and a value strictly between 0 and 1 lies
strictly between 0 and 1. -/
theorem sq_target_sub_mem_Ioo (label : Int) (k : Nat) (o : ℝ) (h0 : 0 < o) (h1 : o < 1) :
    0 < ((if (k : Int) = label then (1 : ℝ) else 0) - o) ^ 2 ∧
    ((if (k : Int) = label then (1 : ℝ) else 0) - o) ^ 2 < 1 := by
  by_cases hk : (k : Int) = label
  · simp only [hk, if_true]
    constructor
    · have : 0 < 1 - o := by linarith
      positivity
    · nlinarith
  · simp only [hk, if_false]
    constructor
    · have : 0 - o ≠ 0 := by linarith
      positivity
    · nlinarith

/-- The loss `train_sample` adds to the accumulator lies strictly between 0 and
`OUTPUT_SIZE`, whatever the label. -/
theorem train_sample_loss_bounds (images : Nat → Nat → ℝ) (labels : Nat → Int)
    (oe he : Nat → ℝ) (i : Nat) (s : TrainState ℝ) :
    s.total_loss < (train_sample Real.exp images labels oe he i s).total_loss ∧
    (train_sample Real.exp images labels oe he i s).total_loss
      < s.total_loss + (OUTPUT_SIZE : ℝ) := by
  have hO : 0 < OUTPUT_SIZE := by decide
  have hne : (Finset.range OUTPUT_SIZE).Nonempty := ⟨0, Finset.mem_range.mpr hO⟩
  have hterm : ∀ k, k ∈ Finset.range OUTPUT_SIZE →
      0 < ((if (k : Int) = labels i then (1 : ℝ) else 0)
          - (forward Real.exp (images i) s.h_weights s.o_weights s.h_layer s.o_layer).2 k) ^ 2 ∧
      ((if (k : Int) = labels i then (1 : ℝ) else 0)
          - (forward Real.exp (images i) s.h_weights s.o_weights s.h_layer s.o_layer).2 k) ^ 2
        < 1 := by
    intro k hk
    have hk2 : k < OUTPUT_SIZE := Finset.mem_range.mp hk
    have hr : 0 < (forward Real.exp (images i) s.h_weights s.o_weights s.h_layer s.o_layer).2 k
        ∧ (forward Real.exp (images i) s.h_weights s.o_weights s.h_layer s.o_layer).2 k < 1 := by
      rw [forward_snd]
      simp only [hk2, if_true]
      exact sigmoid_mem_Ioo Real.exp Real.exp_pos _
    exact sq_target_sub_mem_Ioo (labels i) k _ hr.1 hr.2
  have htot : (train_sample Real.exp images labels oe he i s).total_loss
      = s.total_loss + ∑ k in Finset.range OUTPUT_SIZE,
          ((if (k : Int) = labels i then (1 : ℝ) else 0)
            - (forward Real.exp (images i) s.h_weights s.o_weights s.h_layer s.o_layer).2 k)
              ^ 2 := by
    unfold train_sample
    simp only []
    rw [forLoop_sum, zero_add]
  have hpos := Finset.sum_pos (fun k hk => (hterm k hk).1) hne
  have hlt := Finset.sum_lt_sum_of_nonempty hne (fun k hk => (hterm k hk).2)
  rw [Finset.sum_const, Finset.card_range, nsmul_eq_mul, mul_one] at hlt
  rw [htot]
  constructor
  · linarith
  · linarith

/-- The accumulator after `n` samples: unchanged for `n = 0`, otherwise strictly between
its initial value and that value plus `n · OUTPUT_SIZE`. -/
theorem sample_loop_loss_bounds (images : Nat → Nat → ℝ) (labels : Nat → Int)
    (oe he : Nat → ℝ) (n : Nat) (s : TrainState ℝ) :
    (n = 0 ∧ (forLoop n (train_sample Real.exp images labels oe he) s).total_loss
        = s.total_loss) ∨
    (0 < n ∧ s.total_loss < (forLoop n (train_sample Real.exp images labels oe he) s).total_loss ∧
      (forLoop n (train_sample Real.exp images labels oe he) s).total_loss
        < s.total_loss + (n : ℝ) * (OUTPUT_SIZE : ℝ)) := by
  induction n with
  | zero => exact Or.inl ⟨rfl, rfl⟩
  | succ m ih =>
    right
    rw [forLoop_succ]
    obtain ⟨h1, h2⟩ := train_sample_loss_bounds images labels oe he m
      (forLoop m (train_sample Real.exp images labels oe he) s)
    refine ⟨Nat.succ_pos m, ?_, ?_⟩
    · rcases ih with ⟨_, he0⟩ | ⟨_, hlo, _⟩
      · rw [he0] at h1; exact h1
      · linarith
    · have hcast : ((m + 1 : Nat) : ℝ) * (OUTPUT_SIZE : ℝ)
          = (m : ℝ) * (OUTPUT_SIZE : ℝ) + (OUTPUT_SIZE : ℝ) := by
        push_cast; ring
      rw [hcast]
      rcases ih with ⟨hm0, he0⟩ | ⟨_, _, hhi⟩
      · rw [he0] at h2
        subst hm0
        simp only [Nat.cast_zero, zero_mul, zero_add]
        linarith
      · linarith

/-- The loss one run of the epoch body appends lies strictly between 0 and `OUTPUT_SIZE`. -/
theorem train_epoch_printed_bounds (images : Nat → Nat → ℝ) (labels : Nat → Int)
    (oe he : Nat → ℝ) (e : Nat) (s : TrainState ℝ) :
    ∃ l : ℝ, (train_epoch Real.exp images labels oe he e s).printed = s.printed ++ [l] ∧
      0 < l ∧ l < (OUTPUT_SIZE : ℝ) := by
  have hT : 0 < TRAIN_SIZE := by decide
  have hTR : (0 : ℝ) < (TRAIN_SIZE : ℝ) := by exact_mod_cast hT
  have hb := sample_loop_loss_bounds images labels oe he TRAIN_SIZE
    { h_weights := s.h_weights, o_weights := s.o_weights, h_layer := s.h_layer,
      o_layer := s.o_layer, total_loss := 0, printed := s.printed }
  have hp := sample_loop_printed Real.exp images labels oe he TRAIN_SIZE
    { h_weights := s.h_weights, o_weights := s.o_weights, h_layer := s.h_layer,
      o_layer := s.o_layer, total_loss := 0, printed := s.printed }
  refine ⟨(forLoop TRAIN_SIZE (train_sample Real.exp images labels oe he)
    { h_weights := s.h_weights, o_weights := s.o_weights, h_layer := s.h_layer,
      o_layer := s.o_layer, total_loss := 0, printed := s.printed }).total_loss
      / (TRAIN_SIZE : ℝ), ?_, ?_, ?_⟩
  · have hdef : (train_epoch Real.exp images labels oe he e s).printed
        = (forLoop TRAIN_SIZE (train_sample Real.exp images labels oe he)
            { h_weights := s.h_weights, o_weights := s.o_weights, h_layer := s.h_layer,
              o_layer := s.o_layer, total_loss := 0, printed := s.printed }).printed
          ++ [(forLoop TRAIN_SIZE (train_sample Real.exp images labels oe he)
            { h_weights := s.h_weights, o_weights := s.o_weights, h_layer := s.h_layer,
              o_layer := s.o_layer, total_loss := 0, printed := s.printed }).total_loss
            / (TRAIN_SIZE : ℝ)] := rfl
    rw [hdef, hp]
  · rcases hb with ⟨h0, _⟩ | ⟨_, hlo, _⟩
    · exact absurd h0 (Nat.pos_iff_ne_zero.mp hT)
    · exact div_pos hlo hTR
  · rcases hb with ⟨h0, _⟩ | ⟨_, _, hhi⟩
    · exact absurd h0 (Nat.pos_iff_ne_zero.mp hT)
    · rw [div_lt_iff₀ hTR]
      simp only [zero_add] at hhi
      linarith

/-- Every loss printed during `e` epochs was either printed before or lies strictly
between 0 and `OUTPUT_SIZE`. -/
theorem epoch_loop_printed_bounds (images : Nat → Nat → ℝ) (labels : Nat → Int)
    (oe he : Nat → ℝ) (e : Nat) (s : TrainState ℝ) :
    ∀ l, l ∈ (forLoop e (train_epoch Real.exp images labels oe he) s).printed →
      l ∈ s.printed ∨ (0 < l ∧ l < (OUTPUT_SIZE : ℝ)) := by
  induction e with
  | zero => intro l hl; exact Or.inl hl
  | succ m ih =>
    intro l hl
    rw [forLoop_succ] at hl
    obtain ⟨v, hv, hv0, hv1⟩ := train_epoch_printed_bounds images labels oe he m
      (forLoop m (train_epoch Real.exp images labels oe he) s)
    rw [hv, List.mem_append, List.mem_singleton] at hl
    rcases hl with hl | hl
    · exact ih l hl
    · rw [hl]; exact Or.inr ⟨hv0, hv1⟩

/-- Number of losses printed after `e` epochs. -/
theorem epoch_loop_printed_length {K : Type} [LinearOrderedField K] (exp : K → K)
    (images : Nat → Nat → K) (labels : Nat → Int) (oe he : Nat → K) (e : Nat)
    (s : TrainState K) :
    (forLoop e (train_epoch exp images labels oe he) s).printed.length
      = s.printed.length + e := by
  induction e with
  | zero => rfl
  | succ m ih =>
    rw [forLoop_succ]
    have hdef : (train_epoch exp images labels oe he m
          (forLoop m (train_epoch exp images labels oe he) s)).printed
        = (forLoop TRAIN_SIZE (train_sample exp images labels oe he)
            { h_weights := (forLoop m (train_epoch exp images labels oe he) s).h_weights,
              o_weights := (forLoop m (train_epoch exp images labels oe he) s).o_weights,
              h_layer := (forLoop m (train_epoch exp images labels oe he) s).h_layer,
              o_layer := (forLoop m (train_epoch exp images labels oe he) s).o_layer,
              total_loss := 0,
              printed := (forLoop m (train_epoch exp images labels oe he) s).printed }).printed
          ++ [(forLoop TRAIN_SIZE (train_sample exp images labels oe he)
            { h_weights := (forLoop m (train_epoch exp images labels oe he) s).h_weights,
              o_weights := (forLoop m (train_epoch exp images labels oe he) s).o_weights,
              h_layer := (forLoop m (train_epoch exp images labels oe he) s).h_layer,
              o_layer := (forLoop m (train_epoch exp images labels oe he) s).o_layer,
              total_loss := 0,
              printed := (forLoop m (train_epoch exp images labels oe he) s).printed }).total_loss
            / (TRAIN_SIZE : K)] := rfl
    rw [hdef, sample_loop_printed, List.length_append, ih]
    rfl

/-- C18: over the reals, the squared-error loss `train_net` accumulates for a sample,
`Σ_k (target[k] − output[k])²` with `output` from `forward`, is strictly greater than 0 and
strictly less than `OUTPUT_SIZE`; consequently every epoch mean loss `train_net` reports
lies strictly between 0 and `OUTPUT_SIZE`, and one is reported per epoch. -/
theorem train_loss_strictly_between (images : Nat → Nat → ℝ) (labels : Nat → Int)
    (oe he : Nat → ℝ) :
    (∀ (i : Nat) (s : TrainState ℝ),
      0 < (train_sample Real.exp images labels oe he i s).total_loss - s.total_loss ∧
      (train_sample Real.exp images labels oe he i s).total_loss - s.total_loss
        < (OUTPUT_SIZE : ℝ)) ∧
    (∀ (i : Nat) (s : TrainState ℝ), 0 ≤ labels i → labels i < (OUTPUT_SIZE : Int) →
      (train_sample Real.exp images labels oe he i s).total_loss - s.total_loss
        = ∑ k in Finset.range OUTPUT_SIZE, (oneHot (labels i).toNat k
            - (forward Real.exp (images i) s.h_weights s.o_weights
                (fun _ => 0) (fun _ => 0)).2 k) ^ 2) ∧
    (∀ Wh Wo h0 o0 : Nat → ℝ,
      (train_net Real.exp images labels Wh Wo h0 o0 oe he).2.2.length = EPOCHS ∧
      ∀ l, l ∈ (train_net Real.exp images labels Wh Wo h0 o0 oe he).2.2 →
        0 < l ∧ l < (OUTPUT_SIZE : ℝ)) := by
  refine ⟨?_, ?_, ?_⟩
  · intro i s
    obtain ⟨h1, h2⟩ := train_sample_loss_bounds images labels oe he i s
    constructor
    · linarith
    · linarith
  · intro i s hl _
    rw [train_sample_loss Real.exp images labels oe he i s hl]
    unfold sampleLoss
    ring
  · intro Wh Wo h0 o0
    have hlen := epoch_loop_printed_length Real.exp images labels oe he EPOCHS
      { h_weights := Wh, o_weights := Wo, h_layer := h0, o_layer := o0,
        total_loss := 0, printed := [] }
    have hb := epoch_loop_printed_bounds images labels oe he EPOCHS
      { h_weights := Wh, o_weights := Wo, h_layer := h0, o_layer := o0,
        total_loss := 0, printed := [] }
    constructor
    · have hdef : (train_net Real.exp images labels Wh Wo h0 o0 oe he).2.2
          = (forLoop EPOCHS (train_epoch Real.exp images labels oe he)
              { h_weights := Wh, o_weights := Wo, h_layer := h0, o_layer := o0,
                total_loss := 0, printed := [] }).printed := rfl
      rw [hdef, hlen]
      simp
    · intro l hl
      rcases hb l hl with h | h
      · simp at h
      · exact h

end LossRange

/-! ## Loading failures -/

section Loading

variable {K : Type} [LinearOrderedField K]

/-- When the file cannot be opened `read_csv` leaves both arrays as they were. -/
theorem read_csv_none (images : Nat → Nat → K) (labels : Nat → Int) (size : Int) :
    read_csv none images labels size
      = { images := images, labels := labels, failed_to_open := true } := rfl

/-- State of the line loop of `read_csv` after `n` iterations: the unread lines are
`lines.drop n`, and the rows from `lines.length` on are untouched. -/
theorem read_loop_untouched (lines : List CsvRow) (images : Nat → Nat → K)
    (labels : Nat → Int) (n : Nat) :
    (forLoop n (fun i (st : (Nat → Nat → K) × (Nat → Int) × List CsvRow) =>
        match st.2.2 with
        | [] => st
        | line :: rest =>
          (forLoop INPUT_SIZE (fun j (images : Nat → Nat → K) =>
              Function.update images i
                (Function.update (images i) j ((line.pixels j : Int) : K))) st.1,
            Function.update st.2.1 i line.label, rest)) (images, labels, lines)).2.2
      = lines.drop n ∧
    ∀ a, lines.length ≤ a →
      (forLoop n (fun i (st : (Nat → Nat → K) × (Nat → Int) × List CsvRow) =>
        match st.2.2 with
        | [] => st
        | line :: rest =>
          (forLoop INPUT_SIZE (fun j (images : Nat → Nat → K) =>
              Function.update images i
                (Function.update (images i) j ((line.pixels j : Int) : K))) st.1,
            Function.update st.2.1 i line.label, rest)) (images, labels, lines)).1 a
        = images a ∧
      (forLoop n (fun i (st : (Nat → Nat → K) × (Nat → Int) × List CsvRow) =>
        match st.2.2 with
        | [] => st
        | line :: rest =>
          (forLoop INPUT_SIZE (fun j (images : Nat → Nat → K) =>
              Function.update images i
                (Function.update (images i) j ((line.pixels j : Int) : K))) st.1,
            Function.update st.2.1 i line.label, rest)) (images, labels, lines)).2.1 a
        = labels a := by
  induction n with
  | zero => exact ⟨rfl, fun _ _ => ⟨rfl, rfl⟩⟩
  | succ m ih =>
    rw [forLoop_succ]
    generalize forLoop m (fun i (st : (Nat → Nat → K) × (Nat → Int) × List CsvRow) =>
        match st.2.2 with
        | [] => st
        | line :: rest =>
          (forLoop INPUT_SIZE (fun j (images : Nat → Nat → K) =>
              Function.update images i
                (Function.update (images i) j ((line.pixels j : Int) : K))) st.1,
            Function.update st.2.1 i line.label, rest)) (images, labels, lines) = st at ih
    obtain ⟨img, lab, rest⟩ := st
    obtain ⟨hrest, hframe⟩ := ih
    simp only at hrest hframe
    cases rest with
    | nil =>
      simp only []
      refine ⟨?_, hframe⟩
      have hlen : lines.length ≤ m := List.drop_eq_nil_iff.mp hrest.symm
      exact (List.drop_eq_nil_iff.mpr (Nat.le_succ_of_le hlen)).symm
    | cons line tl =>
      simp only []
      have hm : m < lines.length := by
        by_contra hge
        have hnil : lines.drop m = [] := List.drop_eq_nil_iff.mpr (Nat.le_of_not_lt hge)
        rw [hnil] at hrest
        exact List.cons_ne_nil line tl hrest
      refine ⟨?_, ?_⟩
      · have hd := List.drop_eq_getElem_cons hm
        rw [← hrest] at hd
        exact (List.cons.inj hd).2
      · intro a ha
        have hne : a ≠ m := by omega
        rw [forLoop_row_map INPUT_SIZE m (fun j _ => ((line.pixels j : Int) : K)) img,
          Function.update_noteq hne, Function.update_noteq hne]
        exact hframe a ha

/-- A file with fewer lines than requested: `read_csv` prints no message and leaves the
rows from the number of lines on as they were. -/
theorem read_csv_short (lines : List CsvRow) (images : Nat → Nat → K) (labels : Nat → Int)
    (size : Int) :
    (read_csv (some lines) images labels size).failed_to_open = false ∧
    ∀ a, lines.length ≤ a →
      (read_csv (some lines) images labels size).images a = images a ∧
      (read_csv (some lines) images labels size).labels a = labels a :=
  ⟨rfl, (read_loop_untouched lines images labels size.toNat).2⟩

/-- C16, evaluated on the code: when neither dataset file can be opened `main` only prints
the two messages; it still normalises, trains for `EPOCHS` epochs and evaluates on the
arrays exactly as `malloc` left them, and exits with status 0. With empty files it does
the same without any message. For every state of the files `main` runs `train_net` and
exits with status 0. -/
theorem main_goes_on_without_data (exp : K → K) (RAND_MAX : Int) (rand : Nat → Int)
    (u : Uninit K) :
    ((main exp RAND_MAX rand none none u).test_failed_to_open = true ∧
      (main exp RAND_MAX rand none none u).train_failed_to_open = true ∧
      (main exp RAND_MAX rand none none u).status = 0 ∧
      (main exp RAND_MAX rand none none u).losses
        = (train_net exp (normalize_data u.train_images (TRAIN_SIZE : Int)) u.train_labels
            (init_weights RAND_MAX rand u.h_weights ((HIDDEN_SIZE * INPUT_SIZE : Nat) : Int))
            (init_weights RAND_MAX (fun i => rand (HIDDEN_SIZE * INPUT_SIZE + i)) u.o_weights
              ((OUTPUT_SIZE * HIDDEN_SIZE : Nat) : Int))
            u.h_layer u.o_layer u.o_error u.h_error).2.2) ∧
    ((main exp RAND_MAX rand (some []) (some []) u).test_failed_to_open = false ∧
      (main exp RAND_MAX rand (some []) (some []) u).train_failed_to_open = false ∧
      (main exp RAND_MAX rand (some []) (some []) u).status = 0 ∧
      (main exp RAND_MAX rand (some []) (some []) u).losses
        = (main exp RAND_MAX rand none none u).losses ∧
      (main exp RAND_MAX rand (some []) (some []) u).accuracy
        = (main exp RAND_MAX rand none none u).accuracy) ∧
    (∀ mnist_test mnist_train : Option (List CsvRow),
      (main exp RAND_MAX rand mnist_test mnist_train u).status = 0 ∧
      (main exp RAND_MAX rand mnist_test mnist_train u).losses.length = EPOCHS) := by
  have hempty : ∀ (images : Nat → Nat → K) (labels : Nat → Int) (size : Int),
      (read_csv (some []) images labels size).images = images ∧
      (read_csv (some []) images labels size).labels = labels := by
    intro images labels size
    have h := (read_csv_short [] images labels size).2
    exact ⟨funext (fun a => (h a (Nat.zero_le a)).1), funext (fun a => (h a (Nat.zero_le a)).2)⟩
  refine ⟨⟨rfl, rfl, rfl, rfl⟩, ⟨rfl, rfl, rfl, ?_, ?_⟩, ?_⟩
  · unfold main
    simp only [(hempty _ _ _).1, (hempty _ _ _).2, read_csv_none]
  · unfold main
    simp only [(hempty _ _ _).1, (hempty _ _ _).2, read_csv_none]
  · intro mnist_test mnist_train
    refine ⟨rfl, ?_⟩
    have hlen := epoch_loop_printed_length exp
      (normalize_data (read_csv mnist_train u.train_images u.train_labels
        (TRAIN_SIZE : Int)).images (TRAIN_SIZE : Int))
      (read_csv mnist_train u.train_images u.train_labels (TRAIN_SIZE : Int)).labels
      u.o_error u.h_error EPOCHS
      { h_weights := init_weights RAND_MAX rand u.h_weights
          ((HIDDEN_SIZE * INPUT_SIZE : Nat) : Int),
        o_weights := init_weights RAND_MAX (fun i => rand (HIDDEN_SIZE * INPUT_SIZE + i))
          u.o_weights ((OUTPUT_SIZE * HIDDEN_SIZE : Nat) : Int),
        h_layer := u.h_layer, o_layer := u.o_layer, total_loss := 0, printed := [] }
    simp only [List.length_nil, zero_add] at hlen
    exact hlen

end Loading

/-! ## Rounding lemmas for binary64 -/

section Binary64

theorem F64.val_add (a b : F64) : (a + b).val = fl (a.val + b.val) := rfl

theorem F64.val_sub (a b : F64) : (a - b).val = fl (a.val - b.val) := rfl

theorem F64.val_mul (a b : F64) : (a * b).val = fl (a.val * b.val) := rfl

theorem F64.val_div (a b : F64) : (a / b).val = fl (a.val / b.val) := rfl

theorem F64.val_neg (a : F64) : (-a).val = -a.val := rfl

theorem F64.val_zero : (0 : F64).val = 0 := rfl

theorem F64.val_one : (1 : F64).val = 1 := rfl

theorem F64.eq_of_val (a b : F64) (h : a.val = b.val) : a = b := by
  cases a; cases b; simp only [F64.mk.injEq]; exact h

/-- A rational within less than `1/2` of the integer `n` rounds to `n`. -/
theorem roundHalfEven_eq_of_near (q : ℚ) (n : ℤ) (h : |q - n| < 1 / 2) :
    roundHalfEven q = n := by
  rw [abs_lt] at h
  obtain ⟨h1, h2⟩ := h
  unfold roundHalfEven
  by_cases hge : (n : ℚ) ≤ q
  · have hfl : ⌊q⌋ = n := by
      rw [Int.floor_eq_iff]
      constructor
      · exact hge
      · linarith
    rw [hfl, if_pos (by linarith)]
  · have hlt : q < n := not_le.mp hge
    have hfl : ⌊q⌋ = n - 1 := by
      rw [Int.floor_eq_iff]
      push_cast
      constructor
      · linarith
      · linarith
    rw [hfl]
    push_cast
    rw [if_neg (by linarith), if_pos (by linarith)]
    ring

/-- Evaluation of `fl`: if `2 ^ e ≤ |x| < 2 ^ (e + 1)` with `e ≥ -1022` and
`x / 2 ^ (e - 52)` is within less than `1/2` of the integer `n`, then
`fl x = n · 2 ^ (e - 52)`. -/
theorem fl_eq_of_near (x : ℚ) (e n : ℤ) (he : -1022 ≤ e) (hlo : (2 : ℚ) ^ e ≤ |x|)
    (hhi : |x| < (2 : ℚ) ^ (e + 1)) (hn : |x / (2 : ℚ) ^ (e - 52) - n| < 1 / 2) :
    fl x = n * (2 : ℚ) ^ (e - 52) := by
  have hpos : 0 < |x| := lt_of_lt_of_le (zpow_pos (by norm_num) e) hlo
  have hx : x ≠ 0 := abs_pos.mp hpos
  have hlog : Int.log 2 |x| = e := by
    apply le_antisymm
    · have h := (Int.lt_zpow_iff_log_lt (by norm_num : 1 < 2) hpos).mp
        (by push_cast; exact hhi : |x| < ((2 : ℕ) : ℚ) ^ (e + 1))
      omega
    · exact (Int.zpow_le_iff_le_log (by norm_num : 1 < 2) hpos).mp
        (by push_cast; exact hlo : ((2 : ℕ) : ℚ) ^ e ≤ |x|)
  unfold fl
  rw [if_neg hx, hlog, max_eq_left he, roundHalfEven_eq_of_near _ n hn]

/-- Every natural number below `2 ^ 53` is a double. -/
theorem fl_natCast (n : ℕ) (h : n < 2 ^ 53) : fl (n : ℚ) = n := by
  rcases Nat.eq_zero_or_pos n with h0 | hpos
  · subst h0
    simp [fl]
  · have hne : n ≠ 0 := Nat.pos_iff_ne_zero.mp hpos
    have hlog : Nat.log 2 n < 53 := Nat.log_lt_of_lt_pow hne h
    have h1 : 2 ^ Nat.log 2 n ≤ n := Nat.pow_log_le_self 2 hne
    have h2 : n < 2 ^ (Nat.log 2 n + 1) := Nat.lt_pow_succ_log_self (by norm_num) n
    have hq : (2 : ℚ) ^ ((Nat.log 2 n : ℤ) - 52) = 1 / 2 ^ (52 - Nat.log 2 n) := by
      have : ((Nat.log 2 n : ℤ) - 52) = -((52 - Nat.log 2 n : ℕ) : ℤ) := by omega
      rw [this, zpow_neg, zpow_natCast, one_div]
    have hnn : (0 : ℚ) ≤ (n : ℚ) := Nat.cast_nonneg n
    have key := fl_eq_of_near (n : ℚ) (Nat.log 2 n : ℤ)
      (((n * 2 ^ (52 - Nat.log 2 n) : ℕ) : ℤ)) (by omega)
      (by rw [abs_of_nonneg hnn, zpow_natCast]; exact_mod_cast h1)
      (by
        rw [abs_of_nonneg hnn]
        have : ((Nat.log 2 n : ℤ) + 1) = ((Nat.log 2 n + 1 : ℕ) : ℤ) := by omega
        rw [this, zpow_natCast]
        exact_mod_cast h2)
      (by
        rw [hq]
        push_cast
        have h2pos : (0 : ℚ) < 2 ^ (52 - Nat.log 2 n) := by positivity
        have : (n : ℚ) / (1 / 2 ^ (52 - Nat.log 2 n)) - (n : ℚ) * 2 ^ (52 - Nat.log 2 n) = 0 := by
          field_simp
        rw [this]
        norm_num)
    rw [key, hq]
    push_cast
    have h2pos : (0 : ℚ) < 2 ^ (52 - Nat.log 2 n) := by positivity
    field_simp

/-- Evaluation of `fl` at a positive rational. -/
theorem fl_eval_pos (x y : ℚ) (e n : ℤ) (he : -1022 ≤ e) (hx : 0 < x)
    (hlo : (2 : ℚ) ^ e ≤ x) (hhi : x < (2 : ℚ) ^ (e + 1))
    (hn1 : (n : ℚ) - 1 / 2 < x / (2 : ℚ) ^ (e - 52))
    (hn2 : x / (2 : ℚ) ^ (e - 52) < (n : ℚ) + 1 / 2) (hy : y = n * (2 : ℚ) ^ (e - 52)) :
    fl x = y := by
  rw [hy]
  have hn : |x / (2 : ℚ) ^ (e - 52) - n| < 1 / 2 := by
    rw [abs_lt]
    constructor
    · linarith
    · linarith
  apply fl_eq_of_near x e n he _ _ hn
  · rw [abs_of_pos hx]; exact hlo
  · rw [abs_of_pos hx]; exact hhi

/-- Evaluation of `fl` at a negative rational. -/
theorem fl_eval_neg (x y : ℚ) (e n : ℤ) (he : -1022 ≤ e) (hx : x < 0)
    (hlo : (2 : ℚ) ^ e ≤ -x) (hhi : -x < (2 : ℚ) ^ (e + 1))
    (hn1 : (n : ℚ) - 1 / 2 < x / (2 : ℚ) ^ (e - 52))
    (hn2 : x / (2 : ℚ) ^ (e - 52) < (n : ℚ) + 1 / 2) (hy : y = n * (2 : ℚ) ^ (e - 52)) :
    fl x = y := by
  rw [hy]
  have hn : |x / (2 : ℚ) ^ (e - 52) - n| < 1 / 2 := by
    rw [abs_lt]
    constructor
    · linarith
    · linarith
  apply fl_eq_of_near x e n he _ _ hn
  · rw [abs_of_neg hx]; exact hlo
  · rw [abs_of_neg hx]; exact hhi

/-- Counterexample to C12 as stated: in binary64 arithmetic `d_sigmoid` returns exactly
`0.25` at the double `y = 0.5 + 2^-30`, which lies in `[0, 1]` and is not `0.5`: the exact
product `0.25 - 2^-60` rounds to `0.25`. -/
theorem d_sigmoid_f64_quarter_off_half :
    fl (1 / 2 + 1 / 2 ^ 30) = 1 / 2 + 1 / 2 ^ 30 ∧
    (0 : ℚ) ≤ 1 / 2 + 1 / 2 ^ 30 ∧ (1 / 2 + 1 / 2 ^ 30 : ℚ) ≤ 1 ∧
    (1 / 2 + 1 / 2 ^ 30 : ℚ) ≠ 1 / 2 ∧
    d_sigmoid (F64.mk (1 / 2 + 1 / 2 ^ 30)) = F64.mk (1 / 4) ∧
    d_sigmoid (F64.mk (1 / 2)) = F64.mk (1 / 4) := by
  have hrep : fl (1 / 2 + 1 / 2 ^ 30) = 1 / 2 + 1 / 2 ^ 30 :=
    fl_eval_pos _ _ (-1) (2 ^ 52 + 2 ^ 23) (by norm_num) (by norm_num) (by norm_num)
      (by norm_num) (by norm_num) (by norm_num) (by norm_num)
  have h1 : fl (1 - (1 / 2 + 1 / 2 ^ 30)) = 1 / 2 - 1 / 2 ^ 30 :=
    fl_eval_pos _ _ (-2) (2 ^ 53 - 2 ^ 24) (by norm_num) (by norm_num) (by norm_num)
      (by norm_num) (by norm_num) (by norm_num) (by norm_num)
  have h2 : fl ((1 / 2 + 1 / 2 ^ 30) * (1 / 2 - 1 / 2 ^ 30)) = 1 / 4 :=
    fl_eval_pos _ _ (-3) (2 ^ 53) (by norm_num) (by norm_num) (by norm_num)
      (by norm_num) (by norm_num) (by norm_num) (by norm_num)
  have h3 : fl (1 - 1 / 2) = 1 / 2 :=
    fl_eval_pos _ _ (-1) (2 ^ 52) (by norm_num) (by norm_num) (by norm_num)
      (by norm_num) (by norm_num) (by norm_num) (by norm_num)
  have h4 : fl (1 / 2 * (1 / 2)) = 1 / 4 :=
    fl_eval_pos _ _ (-2) (2 ^ 52) (by norm_num) (by norm_num) (by norm_num)
      (by norm_num) (by norm_num) (by norm_num) (by norm_num)
  refine ⟨hrep, by norm_num, by norm_num, by norm_num, ?_, ?_⟩
  · apply F64.eq_of_val
    unfold d_sigmoid
    rw [F64.val_mul, F64.val_sub, F64.val_one, h1, h2]
  · apply F64.eq_of_val
    unfold d_sigmoid
    rw [F64.val_mul, F64.val_sub, F64.val_one, h3, h4]

end Binary64

/-! ## Closed forms that use no law of arithmetic -/

section ClosedFormsOps

/-- Hidden buffer after `forward`, the pre-activation as the left-to-right sum. -/
theorem forward_fst_ops {K : Type} [Zero K] [One K] [Add K] [Mul K] [Div K] [Neg K]
    (exp : K → K) (x Wh Wo h0 o0 : Nat → K) :
    (forward exp x Wh Wo h0 o0).1 = fun t =>
      if t < HIDDEN_SIZE then
        sigmoid exp (forLoop INPUT_SIZE (fun j acc => acc + x j * Wh (t * INPUT_SIZE + j)) 0)
      else h0 t := by
  unfold forward
  exact forLoop_rows_fold HIDDEN_SIZE INPUT_SIZE (fun i j => x j * Wh (i * INPUT_SIZE + j))
    (fun _ v => sigmoid exp v) h0

/-- Output weight `(k, i)` after `backprop`, operation by operation. -/
theorem backprop_o_weight_ops {K : Type} [Zero K] [One K] [Add K] [Sub K] [Mul K]
    (lr : K) (x : Nat → K) (label : Int)
    (Wh Wo hidden output oe0 he0 : Nat → K) (k i : Nat) (hk : k < OUTPUT_SIZE)
    (hi : i < HIDDEN_SIZE) :
    (backprop lr x label Wh Wo hidden output oe0 he0).2 (k * HIDDEN_SIZE + i)
      = Wo (k * HIDDEN_SIZE + i)
        + lr * (((if (k : Int) = label then 1 else 0) - output k) * d_sigmoid (output k))
          * hidden i := by
  unfold backprop
  simp only []
  rw [forLoop_matrix_add, forLoop_cells]
  have hlt := row_major_lt k OUTPUT_SIZE HIDDEN_SIZE i hk hi
  obtain ⟨hd, hm⟩ := row_major_div_mod k HIDDEN_SIZE i hi
  simp only [hlt, if_true, hd, hm, hk]

end ClosedFormsOps

/-! ## The code in binary64 arithmetic -/

section Binary64Code

theorem F64.add_eq (a b : F64) (y : ℚ) (h : fl (a.val + b.val) = y) : a + b = F64.mk y :=
  F64.eq_of_val _ _ h

theorem F64.sub_eq (a b : F64) (y : ℚ) (h : fl (a.val - b.val) = y) : a - b = F64.mk y :=
  F64.eq_of_val _ _ h

theorem F64.mul_eq (a b : F64) (y : ℚ) (h : fl (a.val * b.val) = y) : a * b = F64.mk y :=
  F64.eq_of_val _ _ h

theorem F64.div_eq (a b : F64) (y : ℚ) (h : fl (a.val / b.val) = y) : a / b = F64.mk y :=
  F64.eq_of_val _ _ h

/-- The double nearest to `0.3`. -/
theorem LEARNING_RATE_f64 : (LEARNING_RATE : F64) = F64.mk (5404319552844595 / 2 ^ 54) := by
  have h3 : ((3 : ℕ) : F64) = F64.mk 3 :=
    F64.eq_of_val _ _ (show fl ((3 : ℕ) : ℚ) = 3 from by
      rw [fl_natCast 3 (by norm_num)]; norm_num)
  have h10 : ((10 : ℕ) : F64) = F64.mk 10 :=
    F64.eq_of_val _ _ (show fl ((10 : ℕ) : ℚ) = 10 from by
      rw [fl_natCast 10 (by norm_num)]; norm_num)
  have hdiv : F64.mk 3 / F64.mk 10 = F64.mk (5404319552844595 / 2 ^ 54) :=
    F64.div_eq _ _ _ (show fl ((3 : ℚ) / 10) = 5404319552844595 / 2 ^ 54 from
      fl_eval_pos _ _ (-2) (5404319552844595) (by norm_num) (by norm_num) (by norm_num)
        (by norm_num) (by norm_num) (by norm_num) (by norm_num))
  have hdef : (LEARNING_RATE : F64) = ((3 : ℕ) : F64) / ((10 : ℕ) : F64) := rfl
  rw [hdef, h3, h10, hdiv]

/-- Counterexample to C19 as stated: in binary64 arithmetic, with the code's learning
rate `0.3`, label `3`, every hidden activation `0.5`, every output activation
`1 - 2^-52` (the double `sigmoid(36)`) and every output weight `0.5625`, the `+=` of
`backprop` absorbs the increment: the weight `(3, 0)` of the label's row and the weight
`(0, 0)` of another row both stay `0.5625`. -/
theorem backprop_f64_absorbs :
    (0 : ℚ) < (LEARNING_RATE : F64).val ∧
    ((0 : ℚ) < 1 / 2 ∧ (1 / 2 : ℚ) < 1) ∧
    ((0 : ℚ) < 1 - 1 / 2 ^ 52 ∧ (1 - 1 / 2 ^ 52 : ℚ) < 1) ∧
    fl (1 - 1 / 2 ^ 52) = 1 - 1 / 2 ^ 52 ∧ fl (9 / 16) = 9 / 16 ∧
    (backprop (LEARNING_RATE : F64) (fun _ => 0) 3 (fun _ => 0) (fun _ => F64.mk (9 / 16))
      (fun _ => F64.mk (1 / 2)) (fun _ => F64.mk (1 - 1 / 2 ^ 52)) (fun _ => 0) (fun _ => 0)).2
        (3 * HIDDEN_SIZE + 0) = F64.mk (9 / 16) ∧
    (backprop (LEARNING_RATE : F64) (fun _ => 0) 3 (fun _ => 0) (fun _ => F64.mk (9 / 16))
      (fun _ => F64.mk (1 / 2)) (fun _ => F64.mk (1 - 1 / 2 ^ 52)) (fun _ => 0) (fun _ => 0)).2
        (0 * HIDDEN_SIZE + 0) = F64.mk (9 / 16) := by
  have ha1 : (1 : F64) - F64.mk (1 - 1 / 2 ^ 52) = F64.mk (1 / 2 ^ 52) :=
    F64.sub_eq _ _ _ (show fl ((1) - (1 - 1 / 2 ^ 52)) = 1 / 2 ^ 52 from
      fl_eval_pos _ _ (-52) (4503599627370496) (by norm_num) (by norm_num) (by norm_num)
        (by norm_num) (by norm_num) (by norm_num) (by norm_num))
  have hd : F64.mk (1 - 1 / 2 ^ 52) * F64.mk (1 / 2 ^ 52) = F64.mk (4503599627370495 / 2 ^ 104) :=
    F64.mul_eq _ _ _ (show fl ((1 - 1 / 2 ^ 52) * (1 / 2 ^ 52)) = 4503599627370495 / 2 ^ 104 from
      fl_eval_pos _ _ (-53) (9007199254740990) (by norm_num) (by norm_num) (by norm_num)
        (by norm_num) (by norm_num) (by norm_num) (by norm_num))
  have hc1 : F64.mk (1 / 2 ^ 52) * F64.mk (4503599627370495 / 2 ^ 104) = F64.mk (4503599627370495 / 2 ^ 156) :=
    F64.mul_eq _ _ _ (show fl ((1 / 2 ^ 52) * (4503599627370495 / 2 ^ 104)) = 4503599627370495 / 2 ^ 156 from
      fl_eval_pos _ _ (-105) (9007199254740990) (by norm_num) (by norm_num) (by norm_num)
        (by norm_num) (by norm_num) (by norm_num) (by norm_num))
  have he1 : F64.mk (5404319552844595 / 2 ^ 54) * F64.mk (4503599627370495 / 2 ^ 156) = F64.mk (2702159776422297 / 2 ^ 157) :=
    F64.mul_eq _ _ _ (show fl ((5404319552844595 / 2 ^ 54) * (4503599627370495 / 2 ^ 156)) = 2702159776422297 / 2 ^ 157 from
      fl_eval_pos _ _ (-106) (5404319552844594) (by norm_num) (by norm_num) (by norm_num)
        (by norm_num) (by norm_num) (by norm_num) (by norm_num))
  have hf1 : F64.mk (2702159776422297 / 2 ^ 157) * F64.mk (1 / 2) = F64.mk (2702159776422297 / 2 ^ 158) :=
    F64.mul_eq _ _ _ (show fl ((2702159776422297 / 2 ^ 157) * (1 / 2)) = 2702159776422297 / 2 ^ 158 from
      fl_eval_pos _ _ (-107) (5404319552844594) (by norm_num) (by norm_num) (by norm_num)
        (by norm_num) (by norm_num) (by norm_num) (by norm_num))
  have hg1 : F64.mk (9 / 16) + F64.mk (2702159776422297 / 2 ^ 158) = F64.mk (9 / 16) :=
    F64.add_eq _ _ _ (show fl ((9 / 16) + (2702159776422297 / 2 ^ 158)) = 9 / 16 from
      fl_eval_pos _ _ (-1) (5066549580791808) (by norm_num) (by norm_num) (by norm_num)
        (by norm_num) (by norm_num) (by norm_num) (by norm_num))
  have ha0 : (0 : F64) - F64.mk (1 - 1 / 2 ^ 52) = F64.mk (-(4503599627370495 / 2 ^ 52)) :=
    F64.sub_eq _ _ _ (show fl ((0) - (1 - 1 / 2 ^ 52)) = -(4503599627370495 / 2 ^ 52) from
      fl_eval_neg _ _ (-1) (-9007199254740990) (by norm_num) (by norm_num) (by norm_num)
        (by norm_num) (by norm_num) (by norm_num) (by norm_num))
  have hc0 : F64.mk (-(4503599627370495 / 2 ^ 52)) * F64.mk (4503599627370495 / 2 ^ 104) = F64.mk (-(2251799813685247 / 2 ^ 103)) :=
    F64.mul_eq _ _ _ (show fl ((-(4503599627370495 / 2 ^ 52)) * (4503599627370495 / 2 ^ 104)) = -(2251799813685247 / 2 ^ 103) from
      fl_eval_neg _ _ (-53) (-9007199254740988) (by norm_num) (by norm_num) (by norm_num)
        (by norm_num) (by norm_num) (by norm_num) (by norm_num))
  have he0 : F64.mk (5404319552844595 / 2 ^ 54) * F64.mk (-(2251799813685247 / 2 ^ 103)) = F64.mk (-(5404319552844593 / 2 ^ 106)) :=
    F64.mul_eq _ _ _ (show fl ((5404319552844595 / 2 ^ 54) * (-(2251799813685247 / 2 ^ 103))) = -(5404319552844593 / 2 ^ 106) from
      fl_eval_neg _ _ (-54) (-5404319552844593) (by norm_num) (by norm_num) (by norm_num)
        (by norm_num) (by norm_num) (by norm_num) (by norm_num))
  have hf0 : F64.mk (-(5404319552844593 / 2 ^ 106)) * F64.mk (1 / 2) = F64.mk (-(5404319552844593 / 2 ^ 107)) :=
    F64.mul_eq _ _ _ (show fl ((-(5404319552844593 / 2 ^ 106)) * (1 / 2)) = -(5404319552844593 / 2 ^ 107) from
      fl_eval_neg _ _ (-55) (-5404319552844593) (by norm_num) (by norm_num) (by norm_num)
        (by norm_num) (by norm_num) (by norm_num) (by norm_num))
  have hg0 : F64.mk (9 / 16) + F64.mk (-(5404319552844593 / 2 ^ 107)) = F64.mk (9 / 16) :=
    F64.add_eq _ _ _ (show fl ((9 / 16) + (-(5404319552844593 / 2 ^ 107))) = 9 / 16 from
      fl_eval_pos _ _ (-1) (5066549580791808) (by norm_num) (by norm_num) (by norm_num)
        (by norm_num) (by norm_num) (by norm_num) (by norm_num))
  have hrepo : fl (1 - 1 / 2 ^ 52) = 1 - 1 / 2 ^ 52 :=
    fl_eval_pos _ _ (-1) (9007199254740990) (by norm_num) (by norm_num) (by norm_num)
      (by norm_num) (by norm_num) (by norm_num) (by norm_num)
  have hrepw : fl (9 / 16) = 9 / 16 :=
    fl_eval_pos _ _ (-1) (5066549580791808) (by norm_num) (by norm_num) (by norm_num)
      (by norm_num) (by norm_num) (by norm_num) (by norm_num)
  refine ⟨?_, ⟨by norm_num, by norm_num⟩, ⟨by norm_num, by norm_num⟩, hrepo, hrepw, ?_, ?_⟩
  · rw [LEARNING_RATE_f64]
    norm_num
  · rw [backprop_o_weight_ops _ _ _ _ _ _ _ _ _ 3 0 (by decide) (by decide)]
    simp only [LEARNING_RATE_f64, d_sigmoid, Nat.cast_ofNat, if_true]
    rw [ha1, hd, hc1, he1, hf1, hg1]
  · rw [backprop_o_weight_ops _ _ _ _ _ _ _ _ _ 0 0 (by decide) (by decide)]
    have hne : ¬ (((0 : ℕ) : Int) = 3) := by decide
    simp only [LEARNING_RATE_f64, d_sigmoid, hne, if_false]
    rw [ha1, hd, ha0, hc0, he0, hf0, hg0]

/-- The running sum `acc += 1.0 * 1.0` is exact: after `n < 2^53` additions it is `n`. -/
theorem f64_sum_ones (n : Nat) (h : n < 2 ^ 53) :
    forLoop n (fun (_ : Nat) (acc : F64) => acc + (1 : F64) * 1) 0 = F64.mk (n : ℚ) := by
  induction n with
  | zero => exact F64.eq_of_val _ _ (by rw [forLoop_zero, F64.val_zero]; norm_num)
  | succ m ih =>
    rw [forLoop_succ, ih (by omega)]
    have h1 : (1 : F64) * 1 = F64.mk 1 :=
      F64.mul_eq _ _ _ (show fl ((1 : ℚ) * 1) = 1 from by
        have := fl_natCast 1 (by norm_num)
        simpa using this)
    rw [h1]
    apply F64.add_eq
    have h2 := fl_natCast (m + 1) h
    show fl ((m : ℚ) + 1) = ((m + 1 : ℕ) : ℚ)
    push_cast at h2 ⊢
    exact h2

/-- The real exponential of `-784` is below `2^-53`. -/
theorem real_exp_neg_784_lt : Real.exp (-784) < 1 / 2 ^ 53 := by
  have h2 : (2 : ℝ) < Real.exp 1 := by
    have := Real.exp_one_gt_d9
    linarith
  have hpow : Real.exp 784 = Real.exp 1 ^ 784 := by
    rw [← Real.exp_nat_mul]
    norm_num
  have hbig : (2 : ℝ) ^ 53 < Real.exp 784 := by
    rw [hpow]
    calc (2 : ℝ) ^ 53 < 2 ^ 784 := by norm_num
      _ ≤ Real.exp 1 ^ 784 := pow_le_pow_left₀ (by norm_num) (le_of_lt h2) 784
  rw [Real.exp_neg, one_div]
  exact inv_strictAnti₀ (by positivity) hbig

/-- Counterexample to C7 as stated: in binary64 arithmetic, for the all-white image
(`x[j] = 1.0`) and hidden weights all `1.0`, every hidden pre-activation is exactly `784`
and, `exp(-784)` being a double in `[0, 2^-53)` as the exponential is, `1.0 + exp(-784)`
rounds to `1.0`: every hidden activation `forward` writes is exactly `1.0`, not below 1. -/
theorem forward_f64_saturates :
    Real.exp (-784) < 1 / 2 ^ 53 ∧
    ∀ (exp : F64 → F64) (Wo h0 o0 : Nat → F64),
      0 ≤ (exp (F64.mk (-784))).val → (exp (F64.mk (-784))).val < 1 / 2 ^ 53 →
      ∀ i, i < HIDDEN_SIZE →
        (forward exp (fun _ => 1) (fun _ => 1) Wo h0 o0).1 i = 1 ∧
        ¬ ((forward exp (fun _ => 1) (fun _ => 1) Wo h0 o0).1 i < 1) := by
  refine ⟨real_exp_neg_784_lt, ?_⟩
  intro exp Wo h0 o0 hε0 hε1 i hi
  have hI : INPUT_SIZE < 2 ^ 53 := by decide
  have hval : (forward exp (fun _ => 1) (fun _ => 1) Wo h0 o0).1 i = 1 := by
    rw [forward_fst_ops]
    simp only [hi, if_true]
    rw [f64_sum_ones INPUT_SIZE hI]
    have hneg : -(F64.mk ((INPUT_SIZE : ℕ) : ℚ)) = F64.mk (-784) :=
      F64.eq_of_val _ _ (by rw [F64.val_neg]; norm_num [INPUT_SIZE])
    have hadd : (1 : F64) + exp (F64.mk (-784)) = F64.mk 1 := by
      apply F64.add_eq
      rw [F64.val_one]
      exact fl_eval_pos _ _ 0 (2 ^ 52) (by norm_num) (by linarith) (by norm_num; linarith)
        (by norm_num; linarith)
        (by norm_num; linarith)
        (by
          have : (1 + (exp (F64.mk (-784))).val) / (2 : ℚ) ^ ((0 : ℤ) - 52)
              = 2 ^ 52 + (exp (F64.mk (-784))).val * 2 ^ 52 := by
            norm_num
            ring
          rw [this]
          push_cast
          have : (exp (F64.mk (-784))).val * 2 ^ 52 < 1 / 2 := by
            have h := mul_lt_mul_of_pos_right hε1 (by positivity : (0 : ℚ) < 2 ^ 52)
            have e : (1 : ℚ) / 2 ^ 53 * 2 ^ 52 = 1 / 2 := by norm_num
            rw [e] at h
            exact h
          linarith)
        (by norm_num)
    have hdiv : (1 : F64) / F64.mk 1 = 1 :=
      F64.eq_of_val _ _ (by
        rw [F64.val_div, F64.val_one]
        have := fl_natCast 1 (by norm_num)
        simpa using this)
    unfold sigmoid
    rw [hneg, hadd, hdiv]
  refine ⟨hval, ?_⟩
  rw [hval]
  exact lt_irrefl (1 : ℚ)

end Binary64Code

end NN
